import Mathlib

/-!
Shallow embedding, in Lean 4, of the algorithms and data structures of the
`data_structures_masters_2025` repository, together with proofs of the
behavioural properties claimed in its specification.

Each definition mirrors one Python function of the repository:
- `Hash.*` embeds `src/hash.py` (hash functions, separate-chaining table,
  collision-counting insertion loop);
- `Arrays.*` embeds `src/Arrays/sorting.py` and `src/Arrays/searching.py`;
- `BST.*` embeds `src/BST/main.py` (plain binary search tree and AVL tree);
- `Graphs.*` embeds `src/graph_dijkstra_bfs_dfs/generate_graph.py`,
  `src/graph_ganancious_search/busca_gananciosa.py` (graph generator) and
  `src/graph_dijkstra_bfs_dfs/dijkstra_metrics.py`.

Python `for x in range(n)` loops are folds over `List.range n`; Python's
unbounded `while` loops are given an explicit fuel argument; calls into
`random.randint` / `random.sample` are abstracted as oracle functions whose
documented contract (`lo <= randint(lo, hi) <= hi`) is a hypothesis.
Machine floats of `hash_func3` are modelled as exact rationals.
-/

namespace Hash

/-- Embeds `hash_func1` of `src/hash.py`: sum of the character codes of the
key, reduced mod `M`. -/
def hash_func1 (key : String) (M : ℕ) : ℕ :=
  (key.data.map Char.toNat).sum % M

/-- Embeds `hash_func2` of `src/hash.py`: base-31 polynomial hash, reduced
mod `M` at every step. -/
def hash_func2 (key : String) (M : ℕ) : ℕ :=
  key.data.foldl (fun h c => (31 * h + c.toNat) % M) 0

/-- Embeds Python's `int(key)` on a string of decimal digits. -/
def intOfKey (key : String) : ℕ :=
  key.data.foldl (fun n c => 10 * n + (c.toNat - 48)) 0

/-- The constant `A = 0.6180339887` of `hash_func3`, as an exact rational. -/
def goldenA : ℚ := 6180339887 / 10000000000

/-- Embeds `hash_func3` of `src/hash.py`: multiplicative (Knuth) hashing,
`int(M * ((k * A) % 1))`, with the float arithmetic modelled exactly over ℚ.
The argument of `int` is nonnegative, so `int` is the floor. -/
def hash_func3 (key : String) (M : ℕ) : ℤ :=
  ⌊(M : ℚ) * Int.fract ((intOfKey key : ℚ) * goldenA)⌋

lemma hash_func2_lt (key : String) (M : ℕ) (hM : 1 ≤ M) : hash_func2 key M < M := by
  unfold hash_func2
  have : ∀ (l : List Char) (h : ℕ), h < M →
      l.foldl (fun h c => (31 * h + c.toNat) % M) h < M := by
    intro l
    induction l with
    | nil => intro h hh; simpa using hh
    | cons c rest ih =>
      intro h _
      exact ih _ (Nat.mod_lt _ (by omega))
  exact this key.data 0 (by omega)

/-- Claim C5: for every key that is a non-empty string of decimal digits and
every table size `M ≥ 1`, each of `hash_func1`, `hash_func2`, `hash_func3`
returns an integer in the range `0` to `M - 1` inclusive (so indexing a
bucket list of length `M` with it cannot go out of range). -/
theorem hash_funcs_in_range (key : String) (M : ℕ)
    (hkey : key.length ≠ 0 ∧ ∀ c ∈ key.data, c.isDigit)
    (hM : 1 ≤ M) :
    hash_func1 key M < M ∧ hash_func2 key M < M ∧
      0 ≤ hash_func3 key M ∧ hash_func3 key M < (M : ℤ) := by
  refine ⟨Nat.mod_lt _ (by omega), hash_func2_lt key M hM, ?_, ?_⟩
  · apply Int.floor_nonneg.mpr
    have h0 : (0 : ℚ) ≤ Int.fract ((intOfKey key : ℚ) * goldenA) := Int.fract_nonneg _
    positivity
  · apply Int.floor_lt.mpr
    push_cast
    have h1 : Int.fract ((intOfKey key : ℚ) * goldenA) < 1 := Int.fract_lt_one _
    have hMpos : (0 : ℚ) < (M : ℚ) := by exact_mod_cast hM
    calc (M : ℚ) * Int.fract ((intOfKey key : ℚ) * goldenA)
        < (M : ℚ) * 1 := by
          exact mul_lt_mul_of_pos_left h1 hMpos
      _ = (M : ℚ) := mul_one _

/-- Witness for C5 at the concrete key `"123"` and table size `M = 7`. -/
theorem hash_funcs_in_range_witness :
    (("123" : String).length ≠ 0 ∧ ∀ c ∈ ("123" : String).data, c.isDigit) ∧ 1 ≤ 7 ∧
      (hash_func1 "123" 7 < 7 ∧ hash_func2 "123" 7 < 7 ∧
        0 ≤ hash_func3 "123" 7 ∧ hash_func3 "123" 7 < (7 : ℤ)) :=
  ⟨by decide, by decide, hash_funcs_in_range "123" 7 (by decide) (by decide)⟩

/-- Embeds the `HashTable` class of `src/hash.py`: `M` buckets stored as a
list of lists, a pluggable hash function, and the insertion counter.
The value type is a parameter (Python is dynamically typed). -/
structure HashTable (V : Type) where
  M : ℕ
  table : List (List (String × V))
  hash_func : String → ℕ → ℕ
  insercoes : ℕ

/-- Embeds `HashTable.__init__`: `M` empty buckets. -/
def mkHashTable (V : Type) (M : ℕ) (f : String → ℕ → ℕ) : HashTable V :=
  ⟨M, List.replicate M [], f, 0⟩

/-- Embeds `HashTable.insert`: append `(key, value)` to the bucket at index
`hash_func key M` and bump the insertion counter. -/
def HashTable.insert {V : Type} (t : HashTable V) (key : String) (value : V) :
    HashTable V :=
  let h := t.hash_func key t.M
  { t with table := t.table.set h (t.table.getD h [] ++ [(key, value)]),
           insercoes := t.insercoes + 1 }

/-- The scan of one bucket performed by `HashTable.search`, with the
`iteracoes` counter threaded through: the counter is incremented before each
key comparison. -/
def searchLoop {V : Type} (key : String) :
    List (String × V) → ℕ → Option V × ℕ
  | [], it => (none, it)
  | (k, v) :: rest, it =>
      if k = key then (some v, it + 1) else searchLoop key rest (it + 1)

/-- Embeds `HashTable.search`: scan the bucket at `hash_func key M`,
returning the value found (or `none`) together with the number of
iterations performed. -/
def HashTable.search {V : Type} (t : HashTable V) (key : String) :
    Option V × ℕ :=
  searchLoop key (t.table.getD (t.hash_func key t.M) []) 0

/-- The bucket a key lives in. -/
def HashTable.bucket {V : Type} (t : HashTable V) (key : String) :
    List (String × V) :=
  t.table.getD (t.hash_func key t.M) []

/-- Inserting a list of records left to right, as the loops of
`rodar_experimento_hash` and the tests do. -/
def insertAll {V : Type} (t : HashTable V) (l : List (String × V)) :
    HashTable V :=
  l.foldl (fun t p => t.insert p.1 p.2) t

lemma HashTable.insert_M {V : Type} (t : HashTable V) (k : String) (v : V) :
    (t.insert k v).M = t.M := rfl

lemma HashTable.insert_hf {V : Type} (t : HashTable V) (k : String) (v : V) :
    (t.insert k v).hash_func = t.hash_func := rfl

lemma HashTable.insert_len {V : Type} (t : HashTable V) (k : String) (v : V) :
    (t.insert k v).table.length = t.table.length := List.length_set ..

/-- Characterisation of the table built by a sequence of inserts: each bucket
holds exactly the inserted pairs hashing to it, in insertion order. -/
lemma insertAll_spec {V : Type} (M : ℕ) (f : String → ℕ → ℕ)
    (hf : ∀ k, f k M < M) :
    ∀ (l : List (String × V)) (t : HashTable V),
      t.M = M → t.hash_func = f → t.table.length = M →
      (∀ h, t.table.getD h [] = [] ) →
      (insertAll t l).M = M ∧ (insertAll t l).hash_func = f ∧
      (insertAll t l).table.length = M ∧
      ∀ h, (insertAll t l).table.getD h [] =
        (l.filter (fun p => f p.1 M == h)) := by
  -- generalised: starting from a table whose buckets are `pre.filter …`
  suffices H : ∀ (l pre : List (String × V)) (t : HashTable V),
      t.M = M → t.hash_func = f → t.table.length = M →
      (∀ h, t.table.getD h [] = (pre.filter (fun p => f p.1 M == h))) →
      (insertAll t l).M = M ∧ (insertAll t l).hash_func = f ∧
      (insertAll t l).table.length = M ∧
      ∀ h, (insertAll t l).table.getD h [] =
        ((pre ++ l).filter (fun p => f p.1 M == h)) by
    intro l t h1 h2 h3 h4
    have := H l [] t h1 h2 h3 (by simpa using h4)
    simpa using this
  intro l
  induction l with
  | nil =>
    intro pre t h1 h2 h3 h4
    exact ⟨h1, h2, h3, by simpa [insertAll] using h4⟩
  | cons p rest ih =>
    intro pre t h1 h2 h3 h4
    obtain ⟨k, v⟩ := p
    have hstep : insertAll t ((k, v) :: rest) = insertAll (t.insert k v) rest := rfl
    rw [hstep]
    have hfk : f k M < M := hf k
    have hTset : (t.insert k v).table =
        t.table.set (f k M) (t.table.getD (f k M) [] ++ [(k, v)]) := by
      simp [HashTable.insert, h1, h2]
    have harg : ∀ h, (t.insert k v).table.getD h [] =
        ((pre ++ [(k, v)]).filter (fun p => f p.1 M == h)) := by
      intro h
      rw [hTset]
      rcases eq_or_ne (f k M) h with he | hne
      · subst he
        rw [List.getD_eq_getElem?_getD,
            List.getElem?_set_self (by omega), Option.getD_some, h4,
            List.filter_append]
        simp
      · rw [List.getD_eq_getElem?_getD, List.getElem?_set_ne hne,
            ← List.getD_eq_getElem?_getD, h4, List.filter_append]
        simp [List.filter_cons, hne]
    have hres := ih (pre ++ [(k, v)]) (t.insert k v)
      (by simp [HashTable.insert, h1]) (by simp [HashTable.insert, h2])
      (by simp [HashTable.insert_len, h3]) harg
    refine ⟨hres.1, hres.2.1, hres.2.2.1, ?_⟩
    intro h
    rw [hres.2.2.2 h]
    simp [List.filter_append, List.filter_cons]

/-- Scanning a bucket that does not contain the key returns `none` and the
full bucket length (plus the starting counter). -/
lemma searchLoop_absent {V : Type} (key : String) :
    ∀ (b : List (String × V)) (c : ℕ), key ∉ b.map Prod.fst →
      searchLoop key b c = (none, c + b.length) := by
  intro b
  induction b with
  | nil => intro c _; simp [searchLoop]
  | cons p rest ih =>
    intro c hk
    obtain ⟨k, v⟩ := p
    simp only [List.map_cons, List.mem_cons] at hk
    push_neg at hk
    have hne : k ≠ key := fun h => hk.1 h.symm
    simp only [searchLoop, if_neg hne]
    rw [ih (c + 1) hk.2]
    congr 1
    simp only [List.length_cons]
    omega

/-- Scanning a bucket whose keys are distinct and that contains `(key, v)`
returns `v` and the 1-based position of that entry. -/
lemma searchLoop_found {V : Type} (key : String) (v : V) :
    ∀ (b : List (String × V)) (c : ℕ), (key, v) ∈ b →
      (b.map Prod.fst).Nodup →
      ∃ i, searchLoop key b c = (some v, c + i + 1) ∧
        b[i]? = some (key, v) ∧
        ∀ j < i, ∀ q, b[j]? = some q → q.1 ≠ key := by
  intro b
  induction b with
  | nil => intro c h; simp at h
  | cons p rest ih =>
    intro c hmem hnd
    obtain ⟨k, w⟩ := p
    simp only [List.map_cons, List.nodup_cons] at hnd
    rcases eq_or_ne k key with hk | hk
    · subst hk
      have hpw : w = v := by
        rcases List.mem_cons.mp hmem with h | h
        · exact (((Prod.mk.injEq _ _ _ _).mp h).2).symm
        · exact absurd (List.mem_map.mpr ⟨(k, v), h, rfl⟩) hnd.1
      subst hpw
      exact ⟨0, by simp [searchLoop], by simp, fun j hj => absurd hj (by omega)⟩
    · have hmem' : (key, v) ∈ rest := by
        rcases List.mem_cons.mp hmem with h | h
        · exact absurd (congrArg Prod.fst h).symm hk
        · exact h
      obtain ⟨i, hsl, hget, hbefore⟩ := ih (c + 1) hmem' hnd.2
      refine ⟨i + 1, ?_, by simpa using hget, ?_⟩
      · simp only [searchLoop, if_neg hk]
        rw [hsl]
        congr 1
        omega
      · intro j hj q hq
        match j with
        | 0 =>
          simp only [List.getElem?_cons_zero, Option.some.injEq] at hq
          subst hq
          exact hk
        | j' + 1 =>
          simp only [List.getElem?_cons_succ] at hq
          exact hbefore j' (by omega) q hq

/-- Claim C4: after inserting pairwise-distinct keys into a fresh table
(with an in-range hash function), searching an inserted key `k` returns its
value and the 1-based position of its entry in its bucket, and searching a
key never inserted returns `none` together with the length of the bucket
`k` hashes to. (In this embedding `search` is a pure function of the table,
so the table is unchanged by searches by construction.) -/
theorem hashtable_search_correct {V : Type} (M : ℕ) (f : String → ℕ → ℕ)
    (l : List (String × V))
    (hf : ∀ k, f k M < M) (hnd : (l.map Prod.fst).Nodup) :
    (∀ k v, (k, v) ∈ l →
      ∃ i, (insertAll (mkHashTable V M f) l).search k = (some v, i + 1) ∧
        ((insertAll (mkHashTable V M f) l).bucket k)[i]? = some (k, v) ∧
        ∀ j < i, ∀ q,
          ((insertAll (mkHashTable V M f) l).bucket k)[j]? = some q → q.1 ≠ k) ∧
    (∀ k, k ∉ l.map Prod.fst →
      (insertAll (mkHashTable V M f) l).search k =
        (none, ((insertAll (mkHashTable V M f) l).table.getD (f k M) []).length)) := by
  set t := insertAll (mkHashTable V M f) l with ht
  obtain ⟨htM, htf, htlen, htb⟩ := insertAll_spec M f hf l (mkHashTable V M f)
    rfl rfl (by simp [mkHashTable]) (by
      intro h
      rcases Nat.lt_or_ge h M with hh | hh
      · simp [mkHashTable, List.getD_eq_getElem?_getD, List.getElem?_replicate, hh]
      · simp [mkHashTable, List.getD_eq_getElem?_getD, List.getElem?_replicate,
          Nat.not_lt.mpr hh])
  have htM' : t.M = M := htM
  have htf' : t.hash_func = f := htf
  have htb' : ∀ h, t.table.getD h [] = (l.filter (fun p => f p.1 M == h)) := htb
  have hbuckdef : ∀ k, t.bucket k = t.table.getD (f k M) [] := by
    intro k
    unfold HashTable.bucket
    rw [htf', htM']
  have hsearchdef : ∀ k, t.search k = searchLoop k (t.bucket k) 0 := by
    intro k
    unfold HashTable.search
    rw [hbuckdef k, htf', htM']
  constructor
  · intro k v hkv
    have hbuck : t.bucket k = l.filter (fun p => f p.1 M == f k M) := by
      rw [hbuckdef k, htb']
    have hmem : (k, v) ∈ t.bucket k := by
      rw [hbuck]
      exact List.mem_filter.mpr ⟨hkv, by simp⟩
    have hndb : ((t.bucket k).map Prod.fst).Nodup := by
      rw [hbuck]
      exact (hnd.sublist ((List.filter_sublist l).map Prod.fst))
    obtain ⟨i, hsl, hget, hbefore⟩ := searchLoop_found k v (t.bucket k) 0 hmem hndb
    refine ⟨i, ?_, hget, hbefore⟩
    rw [hsearchdef k, hsl]
    congr 1
    omega
  · intro k hk
    rw [hsearchdef k, hbuckdef k, searchLoop_absent k _ 0 ?_]
    · simp
    · rw [htb']
      intro hmm
      obtain ⟨p, hp, hpk⟩ := List.mem_map.mp hmm
      exact hk (List.mem_map.mpr ⟨p, (List.mem_filter.mp hp).1, hpk⟩)

/-- Witness for C4: two records with distinct keys in a 3-bucket table. -/
theorem hashtable_search_correct_witness :
    (∀ k, hash_func1 k 3 < 3) ∧
      ((([("ab", (1 : ℕ)), ("cd", 2)] : List (String × ℕ)).map Prod.fst).Nodup) ∧
    (let t := insertAll (mkHashTable ℕ 3 hash_func1) [("ab", 1), ("cd", 2)]
    (∀ k v, (k, v) ∈ [("ab", (1 : ℕ)), ("cd", 2)] →
      ∃ i, t.search k = (some v, i + 1) ∧
        (t.bucket k)[i]? = some (k, v) ∧
        ∀ j < i, ∀ q, (t.bucket k)[j]? = some q → q.1 ≠ k) ∧
    (∀ k, k ∉ ([("ab", (1 : ℕ)), ("cd", 2)] : List (String × ℕ)).map Prod.fst →
      t.search k = (none, (t.table.getD (hash_func1 k 3) []).length))) :=
  ⟨fun k => Nat.mod_lt _ (by omega), by decide,
    hashtable_search_correct 3 hash_func1 [("ab", 1), ("cd", 2)]
      (fun k => Nat.mod_lt _ (by omega)) (by decide)⟩

/-- Number of non-empty buckets of a table. -/
def nonemptyBuckets {V : Type} (t : HashTable V) : ℕ :=
  t.table.countP (fun b => !b.isEmpty)

/-- Embeds the insertion loop of `rodar_experimento_hash` (src/hash.py lines
131-137): for each record, the collision counter is incremented when the
target bucket is non-empty, and then the record is inserted. -/
def experimentLoop {V : Type} :
    List (String × V) → HashTable V → ℕ → HashTable V × ℕ
  | [], t, c => (t, c)
  | (k, v) :: rest, t, c =>
      let h := t.hash_func k t.M
      let c' := if 0 < (t.table.getD h []).length then c + 1 else c
      experimentLoop rest (t.insert k v) c'

lemma experimentLoop_invariant {V : Type} (M : ℕ) (f : String → ℕ → ℕ)
    (hf : ∀ k, f k M < M) :
    ∀ (l : List (String × V)) (t : HashTable V) (c : ℕ),
      t.M = M → t.hash_func = f → t.table.length = M →
      (experimentLoop l t c).2 + nonemptyBuckets (experimentLoop l t c).1 =
        c + nonemptyBuckets t + l.length := by
  intro l
  induction l with
  | nil => intro t c _ _ _; simp [experimentLoop]
  | cons p rest ih =>
    intro t c h1 h2 h3
    obtain ⟨k, v⟩ := p
    have hfk : f k M < M := hf k
    have hlt : t.hash_func k t.M < t.table.length := by rw [h1, h2, h3]; exact hfk
    have hbuck : t.table.getD (t.hash_func k t.M) [] =
        t.table[t.hash_func k t.M] := by
      rw [List.getD_eq_getElem?_getD, List.getElem?_eq_getElem hlt, Option.getD_some]
    have hcount : nonemptyBuckets (t.insert k v) +
          (if 0 < (t.table.getD (t.hash_func k t.M) []).length then 1 else 0) =
        nonemptyBuckets t + 1 := by
      unfold nonemptyBuckets HashTable.insert
      simp only
      rw [List.countP_set _ _ _ _ hlt]
      have hne : (!(t.table.getD (t.hash_func k t.M) [] ++ [(k, v)]).isEmpty) = true := by
        simp
      rcases Nat.eq_zero_or_pos (t.table.getD (t.hash_func k t.M) []).length with h0 | hpos
      · have hE : t.table.getD (t.hash_func k t.M) [] = [] := List.length_eq_zero.mp h0
        have hemp : (!(t.table[t.hash_func k t.M] : List (String × V)).isEmpty) = false := by
          rw [← hbuck, hE]
          rfl
        rw [hne, hemp, hE]
        simp [Nat.sub_zero]
      · obtain ⟨x, xs, hE⟩ : ∃ x xs, t.table.getD (t.hash_func k t.M) [] = x :: xs := by
          rcases hL : t.table.getD (t.hash_func k t.M) [] with _ | ⟨x, xs⟩
          · rw [hL] at hpos; simp at hpos
          · exact ⟨x, xs, rfl⟩
        have hnemp : (!(t.table[t.hash_func k t.M] : List (String × V)).isEmpty) = true := by
          rw [← hbuck, hE]
          rfl
        have hge : 1 ≤ t.table.countP (fun b => !b.isEmpty) := by
          apply List.countP_pos_iff.mpr
          exact ⟨_, t.table.getElem_mem hlt, hnemp⟩
        have htt : (if (true = true) then 1 else 0) = 1 := by simp
        rw [hne, hnemp, if_pos hpos, htt]
        omega
    have hstep : experimentLoop ((k, v) :: rest) t c =
        experimentLoop rest (t.insert k v)
          (if 0 < (t.table.getD (t.hash_func k t.M) []).length then c + 1 else c) := rfl
    rw [hstep, ih (t.insert k v) _ (by rw [HashTable.insert_M, h1])
      (by rw [HashTable.insert_hf, h2]) (by rw [HashTable.insert_len, h3])]
    rcases Nat.eq_zero_or_pos (t.table.getD (t.hash_func k t.M) []).length with h0 | hpos
    · rw [if_neg (by omega)]
      rw [if_neg (by omega)] at hcount
      simp only [List.length_cons]
      omega
    · rw [if_pos hpos]
      rw [if_pos hpos] at hcount
      simp only [List.length_cons]
      omega

/-- Claim C6: running the insertion loop of `rodar_experimento_hash` over
`N` records with pairwise-distinct keys on a fresh table, the collision
counter ends up equal to `N` minus the number of non-empty buckets of the
resulting table. -/
theorem collision_count_eq (M : ℕ) {V : Type} (f : String → ℕ → ℕ)
    (registros : List (String × V))
    (hf : ∀ k, f k M < M) (hnd : (registros.map Prod.fst).Nodup) :
    (experimentLoop registros (mkHashTable V M f) 0).2 =
      registros.length -
        nonemptyBuckets (experimentLoop registros (mkHashTable V M f) 0).1 := by
  have h0 : nonemptyBuckets (mkHashTable V M f) = 0 := by
    unfold nonemptyBuckets mkHashTable
    simp [List.countP_eq_zero]
  have := experimentLoop_invariant M f hf registros (mkHashTable V M f) 0
    rfl rfl (by simp [mkHashTable])
  omega

/-- Witness for C6: three records, two of which collide, in a 2-bucket
table with the polynomial hash. -/
theorem collision_count_eq_witness :
    (∀ k, hash_func2 k 2 < 2) ∧
      ((([("a", (0 : ℕ)), ("b", 1), ("c", 2)] : List (String × ℕ)).map Prod.fst).Nodup) ∧
    (experimentLoop [("a", (0 : ℕ)), ("b", 1), ("c", 2)] (mkHashTable ℕ 2 hash_func2) 0).2 =
      ([("a", (0 : ℕ)), ("b", 1), ("c", 2)] : List (String × ℕ)).length -
        nonemptyBuckets
          (experimentLoop [("a", (0 : ℕ)), ("b", 1), ("c", 2)] (mkHashTable ℕ 2 hash_func2) 0).1 :=
  ⟨fun k => hash_func2_lt k 2 (by omega), by decide,
    collision_count_eq 2 hash_func2 [("a", 0), ("b", 1), ("c", 2)]
      (fun k => hash_func2_lt k 2 (by omega)) (by decide)⟩

end Hash

namespace Arrays

/-- Embeds the `Person` class of `src/Arrays/person.py`: a matricula key and
the payload fields (`salario`, a Python float, is modelled as a rational). -/
structure Person where
  matricula : ℤ
  nome : String
  salario : ℚ
  setor : ℤ
deriving DecidableEq

/-- Placeholder person used as the (never-relevant) default of in-bounds
list indexing. -/
def pdef : Person := ⟨0, "", 0, 0⟩

/-- Embeds the `while left <= right` loop of `binary_search` in
`src/Arrays/searching.py`. Indices are integers; `(left + right) / 2` is
integer floor division, as in Python. -/
def bsLoop (arr : List Person) (target : ℤ) (left right : ℤ) : ℤ :=
  if left ≤ right then
    let mid := (left + right) / 2
    let a := arr.getD mid.toNat pdef
    if a.matricula = target then mid
    else if a.matricula < target then bsLoop arr target (mid + 1) right
    else bsLoop arr target left (mid - 1)
  else -1
termination_by (right + 1 - left).toNat
decreasing_by
  · have h1 : left ≤ (left + right) / 2 := by
      have : (left + left) / 2 ≤ (left + right) / 2 :=
        Int.ediv_le_ediv (by omega) (by omega)
      omega
    omega
  · have h2 : (left + right) / 2 ≤ right := by
      have : (left + right) / 2 ≤ (right + right) / 2 :=
        Int.ediv_le_ediv (by omega) (by omega)
      omega
    omega

/-- Embeds `binary_search` of `src/Arrays/searching.py`. -/
def binary_search (arr : List Person) (target : ℤ) : ℤ :=
  bsLoop arr target 0 ((arr.length : ℤ) - 1)

lemma sorted_getD (arr : List Person)
    (hs : List.Pairwise (fun a b => a.matricula ≤ b.matricula) arr) :
    ∀ i j : ℕ, i ≤ j → j < arr.length →
      (arr.getD i pdef).matricula ≤ (arr.getD j pdef).matricula := by
  intro i j hij hj
  have hi : i < arr.length := lt_of_le_of_lt (by omega) hj
  rw [List.getD_eq_getElem?_getD, List.getD_eq_getElem?_getD,
    List.getElem?_eq_getElem hi, List.getElem?_eq_getElem hj]
  simp only [Option.getD_some]
  rcases Nat.lt_or_ge i j with hlt | hge
  · exact (List.pairwise_iff_getElem.mp hs) i j hi hj hlt
  · have : i = j := by omega
    subst this
    exact le_refl _

lemma bsLoop_correct (arr : List Person) (target : ℤ)
    (hs : List.Pairwise (fun a b => a.matricula ≤ b.matricula) arr) :
    ∀ (n : ℕ) (left right : ℤ), (right + 1 - left).toNat ≤ n →
      0 ≤ left → right < (arr.length : ℤ) →
      (∀ i : ℕ, i < arr.length → (arr.getD i pdef).matricula = target →
        left ≤ (i : ℤ) ∧ (i : ℤ) ≤ right) →
      ((∃ i : ℕ, i < arr.length ∧ (arr.getD i pdef).matricula = target) →
        ∃ i : ℕ, bsLoop arr target left right = (i : ℤ) ∧ i < arr.length ∧
          (arr.getD i pdef).matricula = target) ∧
      ((∀ i : ℕ, i < arr.length → (arr.getD i pdef).matricula ≠ target) →
        bsLoop arr target left right = -1) := by
  intro n
  induction n with
  | zero =>
    intro left right hn h0 hlen hinv
    have hrl : ¬ left ≤ right := by omega
    rw [bsLoop, if_neg hrl]
    constructor
    · rintro ⟨i, hi, hmat⟩
      obtain ⟨hli, hir⟩ := hinv i hi hmat
      omega
    · intro _
      rfl
  | succ n ih =>
    intro left right hn h0 hlen hinv
    rcases Decidable.em (left ≤ right) with hlr | hlr
    · have hmid1 : left ≤ (left + right) / 2 := by
        have : (left + left) / 2 ≤ (left + right) / 2 :=
          Int.ediv_le_ediv (by omega) (by omega)
        omega
      have hmid2 : (left + right) / 2 ≤ right := by
        have : (left + right) / 2 ≤ (right + right) / 2 :=
          Int.ediv_le_ediv (by omega) (by omega)
        omega
      set mid := (left + right) / 2 with hmiddef
      have hmid0 : 0 ≤ mid := le_trans h0 hmid1
      have hmidlt : mid.toNat < arr.length := by omega
      have hmidcast : (mid.toNat : ℤ) = mid := Int.toNat_of_nonneg hmid0
      rw [bsLoop, if_pos hlr]
      simp only [← hmiddef]
      rcases Decidable.em ((arr.getD mid.toNat pdef).matricula = target) with heq | heq
      · rw [if_pos heq]
        constructor
        · intro _
          exact ⟨mid.toNat, hmidcast.symm, hmidlt, heq⟩
        · intro hnone
          exact absurd heq (hnone mid.toNat hmidlt)
      · rw [if_neg heq]
        rcases Decidable.em ((arr.getD mid.toNat pdef).matricula < target) with hlt | hge
        · rw [if_pos hlt]
          have hinv' : ∀ i : ℕ, i < arr.length →
              (arr.getD i pdef).matricula = target →
              mid + 1 ≤ (i : ℤ) ∧ (i : ℤ) ≤ right := by
            intro i hi hmat
            obtain ⟨hli, hir⟩ := hinv i hi hmat
            refine ⟨?_, hir⟩
            by_contra hc
            have hile : (i : ℤ) ≤ mid := by omega
            have := sorted_getD arr hs i mid.toNat (by omega) hmidlt
            omega
          exact ih (mid + 1) right (by omega) (by omega) hlen hinv'
        · rw [if_neg hge]
          have hinv' : ∀ i : ℕ, i < arr.length →
              (arr.getD i pdef).matricula = target →
              left ≤ (i : ℤ) ∧ (i : ℤ) ≤ mid - 1 := by
            intro i hi hmat
            obtain ⟨hli, hir⟩ := hinv i hi hmat
            refine ⟨hli, ?_⟩
            by_contra hc
            have hile : mid ≤ (i : ℤ) := by omega
            have := sorted_getD arr hs mid.toNat i (by omega) hi
            omega
          exact ih left (mid - 1) (by omega) h0 (by omega) hinv'
    · rw [bsLoop, if_neg hlr]
      constructor
      · rintro ⟨i, hi, hmat⟩
        obtain ⟨hli, hir⟩ := hinv i hi hmat
        omega
      · intro _
        rfl

/-- Claim C7: on a list sorted in non-decreasing order of `matricula`,
`binary_search` returns an index holding the target matricula whenever one
exists, and returns `-1` exactly when none does. -/
theorem binary_search_correct (arr : List Person) (target : ℤ)
    (hs : List.Pairwise (fun a b => a.matricula ≤ b.matricula) arr) :
    ((∃ p ∈ arr, p.matricula = target) →
      ∃ i : ℕ, binary_search arr target = (i : ℤ) ∧ i < arr.length ∧
        (arr.getD i pdef).matricula = target) ∧
    ((∀ p ∈ arr, p.matricula ≠ target) → binary_search arr target = -1) := by
  have hmem : ∀ i : ℕ, i < arr.length → arr.getD i pdef ∈ arr := by
    intro i hi
    rw [List.getD_eq_getElem?_getD, List.getElem?_eq_getElem hi, Option.getD_some]
    exact arr.getElem_mem hi
  have := bsLoop_correct arr target hs ((arr.length : ℤ) + 1 - 0).toNat 0
    ((arr.length : ℤ) - 1) (by omega) (by omega) (by omega)
    (by
      intro i hi _
      constructor <;> omega)
  constructor
  · rintro ⟨p, hp, hmat⟩
    apply this.1
    obtain ⟨i, hi, hpi⟩ := List.mem_iff_getElem.mp hp
    refine ⟨i, hi, ?_⟩
    rw [List.getD_eq_getElem?_getD, List.getElem?_eq_getElem hi, Option.getD_some, hpi]
    exact hmat
  · intro hnone
    apply this.2
    intro i hi
    exact hnone _ (hmem i hi)

/-- Witness for C7: a concrete sorted three-element list, searched for a
present matricula. -/
theorem binary_search_correct_witness :
    List.Pairwise (fun a b => a.matricula ≤ b.matricula)
        [(⟨1, "", 0, 0⟩ : Person), ⟨3, "", 0, 0⟩, ⟨5, "", 0, 0⟩] ∧
      (((∃ p ∈ [(⟨1, "", 0, 0⟩ : Person), ⟨3, "", 0, 0⟩, ⟨5, "", 0, 0⟩], p.matricula = 3) →
        ∃ i : ℕ, binary_search [(⟨1, "", 0, 0⟩ : Person), ⟨3, "", 0, 0⟩, ⟨5, "", 0, 0⟩] 3 = (i : ℤ) ∧
          i < ([(⟨1, "", 0, 0⟩ : Person), ⟨3, "", 0, 0⟩, ⟨5, "", 0, 0⟩]).length ∧
          (([(⟨1, "", 0, 0⟩ : Person), ⟨3, "", 0, 0⟩, ⟨5, "", 0, 0⟩]).getD i pdef).matricula = 3) ∧
      ((∀ p ∈ [(⟨1, "", 0, 0⟩ : Person), ⟨3, "", 0, 0⟩, ⟨5, "", 0, 0⟩], p.matricula ≠ 3) →
        binary_search [(⟨1, "", 0, 0⟩ : Person), ⟨3, "", 0, 0⟩, ⟨5, "", 0, 0⟩] 3 = -1)) :=
  ⟨by decide, binary_search_correct _ 3 (by decide)⟩

/-- Simultaneous swap `l[i], l[j] = l[j], l[i]` on a list: both reads happen
before either write, as in Python. -/
def swapL (l : List Person) (i j : ℕ) : List Person :=
  (l.set i (l.getD j pdef)).set j (l.getD i pdef)

/-- Embeds `bubble_sort` of `src/Arrays/sorting.py`: the two `range` loops
become folds, the conditional adjacent swap is kept as in the source. -/
def bubble_sort (array : List Person) : List Person :=
  let length := array.length
  (List.range length).foldl (fun a i =>
    (List.range (length - i - 1)).foldl (fun a j =>
      if (a.getD j pdef).matricula > (a.getD (j + 1) pdef).matricula then
        swapL a j (j + 1)
      else a) a) array

/-- Embeds `selection_sort` of `src/Arrays/sorting.py` faithfully, with its
misplaced `return` inside the `for i` loop: on a non-empty list only the
iteration `i = 0` runs (find the minimum of the whole list, swap it to the
front, return); on an empty list the function falls through and returns
Python's implicit `None`. -/
def selection_sort (array : List Person) : Option (List Person) :=
  let length := array.length
  if length = 0 then none
  else
    let min_idx := (List.range' 1 (length - 1)).foldl
      (fun m j =>
        if (array.getD j pdef).matricula < (array.getD m pdef).matricula then j
        else m) 0
    some (if min_idx ≠ 0 then swapL array 0 min_idx else array)

/-- Embeds the shifting `while` loop of `insertion_sort`: starting at
`j = i - 1`, elements greater than the key are shifted one slot right and
the key is stored at `j + 1` (Python's `j` reaching `-1` corresponds to the
`0` case here). -/
def insertKeyLoop (key : Person) : List Person → ℕ → List Person
  | a, 0 =>
      if (a.getD 0 pdef).matricula > key.matricula then
        (a.set 1 (a.getD 0 pdef)).set 0 key
      else a.set 1 key
  | a, j + 1 =>
      if (a.getD (j + 1) pdef).matricula > key.matricula then
        insertKeyLoop key (a.set (j + 2) (a.getD (j + 1) pdef)) j
      else a.set (j + 2) key

/-- Embeds `insertion_sort` of `src/Arrays/sorting.py`: for each
`i in range(1, len(arr))`, insert `arr[i]` into the sorted prefix. -/
def insertion_sort (arr : List Person) : List Person :=
  (List.range' 1 (arr.length - 1)).foldl
    (fun a i => insertKeyLoop (a.getD i pdef) a (i - 1)) arr

/-- Embeds `quick_sort` of `src/Arrays/sorting.py`: pivot is the head,
`low`/`high` are the `<= pivot` / `> pivot` filters of the tail. -/
def quick_sort : List Person → List Person
  | [] => []
  | [a] => [a]
  | pivot :: rest =>
      quick_sort (rest.filter (fun x => x.matricula ≤ pivot.matricula)) ++
        [pivot] ++
        quick_sort (rest.filter (fun x => x.matricula > pivot.matricula))
termination_by l => l.length
decreasing_by
  · exact Nat.lt_succ_of_le (rest.length_filter_le _)
  · exact Nat.lt_succ_of_le (rest.length_filter_le _)

/-- One iteration of the `for j in range(start, end)` loop of `split`: if
`arr[j] <= pivot`, do `i += 1` (the second state component is `i + 1`) and
swap `arr[i], arr[j]`. -/
def lomutoStep (pivot : Person) (st : List Person × ℕ) (j : ℕ) :
    List Person × ℕ :=
  if (st.1.getD j pdef).matricula ≤ pivot.matricula then
    (swapL st.1 st.2 j, st.2 + 1)
  else st

/-- Embeds `split` (Lomuto partition) of `src/Arrays/sorting.py`. Python's
`i` starts at `start - 1` and is only used through `i + 1`, which is the
second state component here. Returns the mutated list and `p = i + 1`. -/
def split (arr : List Person) (start endI : ℕ) : List Person × ℕ :=
  let pivot := arr.getD endI pdef
  let res := (List.range' start (endI - start)).foldl (lomutoStep pivot) (arr, start)
  (swapL res.1 res.2 endI, res.2)

lemma split_snd_le (pivot : Person) : ∀ (L : List ℕ) (s : List Person × ℕ),
    s.2 ≤ (L.foldl (lomutoStep pivot) s).2 ∧
      (L.foldl (lomutoStep pivot) s).2 ≤ s.2 + L.length := by
  intro L
  induction L with
  | nil => intro s; simp
  | cons j rest ih =>
    intro s
    have h1 := ih (lomutoStep pivot s j)
    have h2 : (lomutoStep pivot s j).2 = s.2 + 1 ∨ (lomutoStep pivot s j).2 = s.2 := by
      unfold lomutoStep
      rcases Decidable.em ((s.1.getD j pdef).matricula ≤ pivot.matricula) with h | h
      · left; rw [if_pos h]
      · right; rw [if_neg h]
    simp only [List.foldl_cons, List.length_cons]
    omega

lemma split_bounds (arr : List Person) (start endI : ℕ) :
    start ≤ (split arr start endI).2 ∧
      (split arr start endI).2 ≤ start + (endI - start) := by
  unfold split
  simp only
  have := split_snd_le (arr.getD endI pdef) (List.range' start (endI - start)) (arr, start)
  simpa using this

/-- Embeds `_quicksort_inplace` of `src/Arrays/sorting.py`. -/
def quicksortInplaceAux (arr : List Person) (start endI : ℕ) : List Person :=
  if start < endI then
    let s := split arr start endI
    quicksortInplaceAux (quicksortInplaceAux s.1 start (s.2 - 1)) (s.2 + 1) endI
  else arr
termination_by endI - start
decreasing_by
  · have := split_bounds arr start endI
    omega
  · have := split_bounds arr start endI
    omega

/-- Embeds `quicksort_inplace` of `src/Arrays/sorting.py`. -/
def quicksort_inplace (arr : List Person) : List Person :=
  quicksortInplaceAux arr 0 (arr.length - 1)

/-- Shorthand for building a `Person` carrying only a matricula. -/
def mkP (n : ℤ) : Person := ⟨n, "", 0, 0⟩

lemma swapL_length (l : List Person) (i j : ℕ) :
    (swapL l i j).length = l.length := by
  simp [swapL]

lemma swapL_getD_right (l : List Person) (i j : ℕ) (hj : j < l.length) :
    (swapL l i j).getD j pdef = l.getD i pdef := by
  unfold swapL
  rw [List.getD_eq_getElem _ _ (by simpa using hj), List.getElem_set_self]

lemma swapL_getD_left (l : List Person) (i j : ℕ) (hij : i ≠ j)
    (hi : i < l.length) (hj : j < l.length) :
    (swapL l i j).getD i pdef = l.getD j pdef := by
  unfold swapL
  rw [List.getD_eq_getElem _ _ (by simpa using hi),
    List.getElem_set_ne (fun h => hij h.symm), List.getElem_set_self,
    List.getD_eq_getElem _ _ hj]

lemma swapL_getD_other (l : List Person) (i j k : ℕ) (hki : k ≠ i) (hkj : k ≠ j) :
    (swapL l i j).getD k pdef = l.getD k pdef := by
  unfold swapL
  rw [List.getD_eq_getElem?_getD,
    List.getElem?_set_ne (fun h => hkj h.symm), List.getElem?_set_ne (fun h => hki h.symm)]
  exact (List.getD_eq_getElem?_getD l k pdef).symm

lemma count_le_of_getElem (l : List Person) (i : ℕ) (hi : i < l.length) (b : Person) :
    (if l[i] = b then 1 else 0) ≤ l.count b := by
  rcases Decidable.em (l[i] = b) with h | h
  · rw [if_pos h]
    exact List.count_pos_iff.mpr (h ▸ l.getElem_mem hi)
  · rw [if_neg h]
    exact Nat.zero_le _

lemma swapL_perm (l : List Person) (i j : ℕ) (hi : i < l.length) (hj : j < l.length) :
    (swapL l i j).Perm l := by
  apply List.perm_iff_count.mpr
  intro b
  unfold swapL
  have hx : l.getD j pdef = l[j] := List.getD_eq_getElem _ _ hj
  have hy : l.getD i pdef = l[i] := List.getD_eq_getElem _ _ hi
  have hj' : j < (l.set i (l.getD j pdef)).length := by simpa using hj
  rw [List.count_set _ _ _ _ hj', List.count_set _ _ _ _ hi]
  have hC := count_le_of_getElem l i hi b
  have hD := count_le_of_getElem l j hj b
  rcases eq_or_ne i j with he | hne
  · subst he
    have hgs : (l.set i (l.getD i pdef))[i] = l.getD i pdef := List.getElem_set_self _
    rw [hgs, hx]
    simp only [beq_iff_eq]
    rcases Decidable.em (l[i] = b) with h | h
    · rw [if_pos h] at hC ⊢
      omega
    · rw [if_neg h]
      omega
  · have hgs : (l.set i (l.getD j pdef))[j] = l[j] := List.getElem_set_ne hne _
    rw [hgs, hx, hy]
    simp only [beq_iff_eq]
    rcases Decidable.em (l[i] = b) with h1 | h1 <;>
      rcases Decidable.em (l[j] = b) with h2 | h2
    · rw [if_pos h1] at hC ⊢
      rw [if_pos h2] at hD ⊢
      omega
    · rw [if_pos h1] at hC ⊢
      rw [if_neg h2]
      omega
    · rw [if_neg h1]
      rw [if_pos h2] at hD ⊢
      omega
    · rw [if_neg h1, if_neg h2]
      omega

/-- The (closed) segment `l[s..e]` of a list. -/
def seg (l : List Person) (s e : ℕ) : List Person :=
  (l.drop s).take (e + 1 - s)

lemma seg_decomp (l : List Person) (s e : ℕ) (h : s ≤ e + 1) :
    l.take s ++ seg l s e ++ l.drop (e + 1) = l := by
  unfold seg
  have h1 : (l.drop s).take (e + 1 - s) ++ (l.drop s).drop (e + 1 - s) = l.drop s :=
    List.take_append_drop _ _
  have h2 : (l.drop s).drop (e + 1 - s) = l.drop (e + 1) := by
    rw [List.drop_drop]
    congr 1
    omega
  rw [List.append_assoc, ← h2, h1, List.take_append_drop]

lemma take_eq_of_getD (l₁ l₂ : List Person) (s : ℕ)
    (hlen : l₁.length = l₂.length)
    (h : ∀ k, k < s → l₁.getD k pdef = l₂.getD k pdef) :
    l₁.take s = l₂.take s := by
  apply List.ext_getElem (by simp [hlen])
  intro n h₁ h₂
  have hn1 : n < l₁.length := by simp at h₁; omega
  have hn2 : n < l₂.length := by simp at h₂; omega
  have hns : n < s := by simp at h₁; omega
  rw [List.getElem_take, List.getElem_take]
  have := h n hns
  rwa [List.getD_eq_getElem _ _ hn1, List.getD_eq_getElem _ _ hn2] at this

lemma drop_eq_of_getD (l₁ l₂ : List Person) (s : ℕ)
    (hlen : l₁.length = l₂.length)
    (h : ∀ k, s ≤ k → l₁.getD k pdef = l₂.getD k pdef) :
    l₁.drop s = l₂.drop s := by
  apply List.ext_getElem (by simp [hlen])
  intro n h₁ h₂
  have hn1 : s + n < l₁.length := by simp at h₁; omega
  have hn2 : s + n < l₂.length := by simp at h₂; omega
  rw [List.getElem_drop, List.getElem_drop]
  have := h (s + n) (by omega)
  rwa [List.getD_eq_getElem _ _ hn1, List.getD_eq_getElem _ _ hn2] at this

lemma seg_perm_of_perm (l₁ l₂ : List Person) (s e : ℕ) (hse : s ≤ e + 1)
    (hp : l₁.Perm l₂) (hlen : l₁.length = l₂.length)
    (hout : ∀ k, k < s ∨ e < k → l₁.getD k pdef = l₂.getD k pdef) :
    (seg l₁ s e).Perm (seg l₂ s e) := by
  have ht : l₁.take s = l₂.take s :=
    take_eq_of_getD l₁ l₂ s hlen (fun k hk => hout k (Or.inl hk))
  have hd : l₁.drop (e + 1) = l₂.drop (e + 1) :=
    drop_eq_of_getD l₁ l₂ (e + 1) hlen (fun k hk => hout k (Or.inr (by omega)))
  have h₁ := seg_decomp l₁ s e hse
  have h₂ := seg_decomp l₂ s e hse
  have hp' : l₁.take s ++ seg l₁ s e ++ l₁.drop (e + 1) |>.Perm
      (l₁.take s ++ seg l₂ s e ++ l₁.drop (e + 1)) := by
    rw [h₁, ht, hd, h₂]
    exact hp
  have := (List.perm_append_right_iff _).mp hp'
  exact (List.perm_append_left_iff _).mp this

lemma mem_seg_iff (l : List Person) (s e : ℕ) (x : Person) :
    x ∈ seg l s e ↔ ∃ k, s ≤ k ∧ k ≤ e ∧ k < l.length ∧ l.getD k pdef = x := by
  unfold seg
  constructor
  · intro hx
    obtain ⟨i, hi, hix⟩ := List.mem_iff_getElem.mp hx
    have hi' : i < e + 1 - s ∧ i < l.length - s := by
      simpa [List.length_take, List.length_drop, Nat.lt_min] using hi
    refine ⟨s + i, by omega, by omega, by omega, ?_⟩
    rw [List.getElem_take, List.getElem_drop] at hix
    rw [List.getD_eq_getElem _ _ (by omega)]
    exact hix
  · rintro ⟨k, hsk, hke, hkl, hkx⟩
    apply List.mem_iff_getElem.mpr
    refine ⟨k - s, by simp [List.length_take, List.length_drop]; omega, ?_⟩
    rw [List.getElem_take, List.getElem_drop]
    rw [List.getD_eq_getElem _ _ (by omega)] at hkx
    convert hkx using 2
    omega

/-- Invariant of the Lomuto partition loop: after processing
`j = start .. start + t - 1`, the list is a permutation of the input that
agrees with it outside `[start, start + t)`, positions `[start, i + 1)` hold
elements `≤ pivot` and positions `[i + 1, start + t)` hold elements
`> pivot`. -/
lemma lomuto_fold_spec (arr : List Person) (s e : ℕ) (he : e < arr.length) :
    ∀ t, t ≤ e - s →
      (((List.range' s t).foldl (lomutoStep (arr.getD e pdef)) (arr, s)).1.length = arr.length) ∧
      (((List.range' s t).foldl (lomutoStep (arr.getD e pdef)) (arr, s)).1.Perm arr) ∧
      (s ≤ ((List.range' s t).foldl (lomutoStep (arr.getD e pdef)) (arr, s)).2) ∧
      (((List.range' s t).foldl (lomutoStep (arr.getD e pdef)) (arr, s)).2 ≤ s + t) ∧
      (∀ m, m < s ∨ s + t ≤ m →
        ((List.range' s t).foldl (lomutoStep (arr.getD e pdef)) (arr, s)).1.getD m pdef =
          arr.getD m pdef) ∧
      (∀ m, s ≤ m → m < ((List.range' s t).foldl (lomutoStep (arr.getD e pdef)) (arr, s)).2 →
        (((List.range' s t).foldl (lomutoStep (arr.getD e pdef)) (arr, s)).1.getD m pdef).matricula ≤
          (arr.getD e pdef).matricula) ∧
      (∀ m, ((List.range' s t).foldl (lomutoStep (arr.getD e pdef)) (arr, s)).2 ≤ m → m < s + t →
        (arr.getD e pdef).matricula <
          (((List.range' s t).foldl (lomutoStep (arr.getD e pdef)) (arr, s)).1.getD m pdef).matricula) := by
  intro t
  induction t with
  | zero =>
    intro _
    exact ⟨rfl, List.Perm.refl _, le_refl _, Nat.le_of_eq (Nat.add_zero s).symm,
      fun m _ => rfl,
      fun m h1 h2 => by have h1' : s ≤ m := h1; have h2' : m < s := h2; omega,
      fun m h1 h2 => by have h1' : s ≤ m := h1; have h2' : m < s + 0 := h2; omega⟩
  | succ t ih =>
    intro ht
    obtain ⟨ihlen, ihperm, ihk1, ihk2, ihout, ihle, ihgt⟩ := ih (by omega)
    have hconcat : List.range' s (t + 1) = List.range' s t ++ [s + t] := by
      rw [List.range'_concat]
      simp
    rw [hconcat, List.foldl_append]
    set st := (List.range' s t).foldl (lomutoStep (arr.getD e pdef)) (arr, s) with hst
    simp only [List.foldl_cons, List.foldl_nil]
    have hjlt : s + t < e := by omega
    have hjlen : s + t < st.1.length := by omega
    have hklen : st.2 < st.1.length := by omega
    unfold lomutoStep
    rcases Decidable.em ((st.1.getD (s + t) pdef).matricula ≤ (arr.getD e pdef).matricula) with
      hc | hc
    · rw [if_pos hc]
      simp only
      refine ⟨by rw [swapL_length]; exact ihlen,
        (swapL_perm st.1 st.2 (s + t) hklen hjlen).trans ihperm,
        by omega, by omega, ?_, ?_, ?_⟩
      · intro m hm
        rw [swapL_getD_other st.1 st.2 (s + t) m (by omega) (by omega)]
        exact ihout m (by omega)
      · intro m hm1 hm2
        rcases Nat.lt_or_ge m st.2 with hmk | hmk
        · rw [swapL_getD_other st.1 st.2 (s + t) m (by omega) (by omega)]
          exact ihle m hm1 hmk
        · have hmeq : m = st.2 := by omega
          subst hmeq
          rcases eq_or_ne st.2 (s + t) with hke | hke
          · rw [hke, swapL_getD_right st.1 (s + t) (s + t) (hke ▸ hjlen), ← hke]
            exact hke ▸ hc
          · rw [swapL_getD_left st.1 st.2 (s + t) hke hklen hjlen]
            exact hc
      · intro m hm1 hm2
        rcases Nat.lt_or_ge m (s + t) with hmj | hmj
        · rw [swapL_getD_other st.1 st.2 (s + t) m (by omega) (by omega)]
          exact ihgt m (by omega) hmj
        · have hmeq : m = s + t := by omega
          subst hmeq
          have hkj : st.2 < s + t := by omega
          rw [swapL_getD_right st.1 st.2 (s + t) hjlen]
          exact ihgt st.2 (le_refl _) hkj
    · rw [if_neg hc]
      refine ⟨ihlen, ihperm, by omega, by omega, ?_, ?_, ?_⟩
      · intro m hm
        exact ihout m (by omega)
      · exact fun m hm1 hm2 => ihle m hm1 hm2
      · intro m hm1 hm2
        rcases Nat.lt_or_ge m (s + t) with hmj | hmj
        · exact ihgt m hm1 hmj
        · have hmeq : m = s + t := by omega
          subst hmeq
          omega

/-- Full specification of `split`: the returned list is a permutation of
the input agreeing with it outside `[start, end]`; the pivot (the input's
last segment element) sits at the returned index `p`, everything in
`[start, p)` is `≤` pivot and everything in `(p, end]` is `>` pivot. -/
lemma split_spec (arr : List Person) (s e : ℕ) (hse : s ≤ e) (he : e < arr.length) :
    (split arr s e).1.length = arr.length ∧
    (split arr s e).1.Perm arr ∧
    s ≤ (split arr s e).2 ∧ (split arr s e).2 ≤ e ∧
    (∀ m, m < s ∨ e < m → (split arr s e).1.getD m pdef = arr.getD m pdef) ∧
    (split arr s e).1.getD (split arr s e).2 pdef = arr.getD e pdef ∧
    (∀ m, s ≤ m → m < (split arr s e).2 →
      ((split arr s e).1.getD m pdef).matricula ≤ (arr.getD e pdef).matricula) ∧
    (∀ m, (split arr s e).2 < m → m ≤ e →
      (arr.getD e pdef).matricula < ((split arr s e).1.getD m pdef).matricula) := by
  obtain ⟨hlen, hperm, hk1, hk2, hout, hle, hgt⟩ :=
    lomuto_fold_spec arr s e he (e - s) (le_refl _)
  have hse' : s + (e - s) = e := by omega
  rw [hse'] at hk2 hout hgt
  unfold split
  simp only
  set st := (List.range' s (e - s)).foldl (lomutoStep (arr.getD e pdef)) (arr, s) with hst
  have hklen : st.2 < st.1.length := by omega
  have helen : e < st.1.length := by omega
  refine ⟨by rw [swapL_length]; exact hlen,
    (swapL_perm st.1 st.2 e hklen helen).trans hperm,
    hk1, hk2, ?_, ?_, ?_, ?_⟩
  · intro m hm
    rw [swapL_getD_other st.1 st.2 e m (by omega) (by omega)]
    exact hout m (by omega)
  · rcases eq_or_ne st.2 e with hke | hke
    · rw [hke, swapL_getD_right st.1 e e helen, ← hke]
      exact hke ▸ (hout e (by omega))
    · rw [swapL_getD_left st.1 st.2 e hke hklen helen]
      exact hout e (by omega)
  · intro m hm1 hm2
    rw [swapL_getD_other st.1 st.2 e m (by omega) (by omega)]
    exact hle m hm1 hm2
  · intro m hm1 hm2
    rcases eq_or_ne m e with hme | hme
    · subst hme
      rw [swapL_getD_right st.1 st.2 m helen]
      exact hgt st.2 (le_refl _) (by omega)
    · rw [swapL_getD_other st.1 st.2 e m (by omega) hme]
      exact hgt m (by omega) (by omega)



lemma qsAux_eq_rec (arr : List Person) (s e : ℕ) (h : s < e) :
    quicksortInplaceAux arr s e =
      quicksortInplaceAux
        (quicksortInplaceAux (split arr s e).1 s ((split arr s e).2 - 1))
        ((split arr s e).2 + 1) e := by
  rw [quicksortInplaceAux, if_pos h]

lemma qsAux_eq_base (arr : List Person) (s e : ℕ) (h : ¬ s < e) :
    quicksortInplaceAux arr s e = arr := by
  rw [quicksortInplaceAux, if_neg h]

/-- Full specification of `_quicksort_inplace` on the segment `[s, e]`:
the result is a permutation of the input, agrees with it outside the
segment, and the segment is sorted by matricula. -/
lemma qsAux_spec : ∀ (n : ℕ) (arr : List Person) (s e : ℕ), e - s ≤ n →
    e < arr.length →
    (quicksortInplaceAux arr s e).length = arr.length ∧
    (quicksortInplaceAux arr s e).Perm arr ∧
    (∀ k, k < s ∨ e < k →
      (quicksortInplaceAux arr s e).getD k pdef = arr.getD k pdef) ∧
    (∀ i j, s ≤ i → i ≤ j → j ≤ e → j < arr.length →
      ((quicksortInplaceAux arr s e).getD i pdef).matricula ≤
        ((quicksortInplaceAux arr s e).getD j pdef).matricula) := by
  intro n
  induction n with
  | zero =>
    intro arr s e hn he
    have hns : ¬ s < e := by omega
    rw [qsAux_eq_base arr s e hns]
    refine ⟨rfl, List.Perm.refl _, fun k _ => rfl, ?_⟩
    intro i j h1 h2 h3 h4
    have : i = j := by omega
    subst this
    exact le_refl _
  | succ n ih =>
    intro arr s e hn he
    rcases Decidable.em (s < e) with hlt | hlt
    swap
    · rw [qsAux_eq_base arr s e hlt]
      refine ⟨rfl, List.Perm.refl _, fun k _ => rfl, ?_⟩
      intro i j h1 h2 h3 h4
      have : i = j := by omega
      subst this
      exact le_refl _
    obtain ⟨hAlen, hAperm, hp1, hp2, hAout, hApiv, hAle, hAgt⟩ :=
      split_spec arr s e (by omega) he
    set A := (split arr s e).1 with hAdef
    set p := (split arr s e).2 with hpdef
    obtain ⟨hBlen, hBperm, hBout, hBsorted⟩ :=
      ih A s (p - 1) (by omega) (by omega)
    set B := quicksortInplaceAux A s (p - 1) with hBdef
    obtain ⟨hClen, hCperm, hCout, hCsorted⟩ :=
      ih B (p + 1) e (by omega) (by omega)
    set C := quicksortInplaceAux B (p + 1) e with hCdef
    rw [qsAux_eq_rec arr s e hlt, ← hAdef, ← hpdef, ← hBdef, ← hCdef]
    -- facts about B relative to A
    have hBA : ∀ k, k < s ∨ p ≤ k → B.getD k pdef = A.getD k pdef := by
      intro k hk
      rcases Nat.eq_zero_or_pos p with hp0 | hppos
      · rw [hBdef, hp0, qsAux_eq_base A s (0 - 1) (by omega)]
      · exact hBout k (by omega)
    have hBpiv : B.getD p pdef = arr.getD e pdef := by
      rw [hBA p (Or.inr (le_refl _)), hApiv]
    have hBle : ∀ m, s ≤ m → m < p →
        (B.getD m pdef).matricula ≤ (arr.getD e pdef).matricula := by
      intro m hm1 hm2
      have hsegperm : (seg B s (p - 1)).Perm (seg A s (p - 1)) :=
        seg_perm_of_perm B A s (p - 1) (by omega) hBperm hBlen
          (fun k hk => hBout k hk)
      have hmem : B.getD m pdef ∈ seg B s (p - 1) :=
        (mem_seg_iff B s (p - 1) _).mpr ⟨m, hm1, by omega, by omega, rfl⟩
      have hmem' : B.getD m pdef ∈ seg A s (p - 1) := hsegperm.mem_iff.mp hmem
      obtain ⟨k, hk1, hk2, hk3, hk4⟩ := (mem_seg_iff A s (p - 1) _).mp hmem'
      rw [← hk4]
      exact hAle k hk1 (by omega)
    -- facts about C relative to B
    have hCB : ∀ k, k ≤ p ∨ e < k → C.getD k pdef = B.getD k pdef := by
      intro k hk
      exact hCout k (by omega)
    have hCpiv : C.getD p pdef = arr.getD e pdef := by
      rw [hCB p (Or.inl (le_refl _)), hBpiv]
    have hCle : ∀ m, s ≤ m → m < p →
        (C.getD m pdef).matricula ≤ (arr.getD e pdef).matricula := by
      intro m hm1 hm2
      rw [hCB m (Or.inl (by omega))]
      exact hBle m hm1 hm2
    have hCgt : ∀ m, p < m → m ≤ e →
        (arr.getD e pdef).matricula < (C.getD m pdef).matricula := by
      intro m hm1 hm2
      have hsegperm : (seg C (p + 1) e).Perm (seg B (p + 1) e) :=
        seg_perm_of_perm C B (p + 1) e (by omega) hCperm hClen
          (fun k hk => hCout k hk)
      have hmem : C.getD m pdef ∈ seg C (p + 1) e :=
        (mem_seg_iff C (p + 1) e _).mpr ⟨m, by omega, hm2, by omega, rfl⟩
      have hmem' : C.getD m pdef ∈ seg B (p + 1) e := hsegperm.mem_iff.mp hmem
      obtain ⟨k, hk1, hk2, hk3, hk4⟩ := (mem_seg_iff B (p + 1) e _).mp hmem'
      rw [← hk4, hBA k (Or.inr (by omega))]
      exact hAgt k (by omega) hk2
    have hCleft : ∀ i j, s ≤ i → i ≤ j → j ≤ p - 1 → j < arr.length →
        (C.getD i pdef).matricula ≤ (C.getD j pdef).matricula := by
      intro i j h1 h2 h3 h4
      rcases Nat.eq_zero_or_pos p with hp0 | hppos
      · have hij : i = j := by omega
        subst hij
        exact le_refl _
      · rw [hCB i (Or.inl (by omega)), hCB j (Or.inl (by omega))]
        exact hBsorted i j h1 h2 h3 (by omega)
    refine ⟨by omega, (hCperm.trans hBperm).trans hAperm, ?_, ?_⟩
    · intro k hk
      rw [hCout k (by omega), hBA k (by omega)]
      exact hAout k (by omega)
    · intro i j h1 h2 h3 h4
      rcases Nat.lt_or_ge j p with hjp | hjp
      · exact hCleft i j h1 h2 (by omega) h4
      · rcases Nat.lt_or_ge i p with hip | hip
        · -- i < p ≤ j : C[i] ≤ pivot ≤ C[j]
          have hi_le := hCle i h1 hip
          rcases eq_or_ne j p with hjp' | hjp'
          · subst hjp'
            rw [hCpiv]
            exact hi_le
          · have hgt := hCgt j (by omega) h3
            omega
        · -- p ≤ i ≤ j
          rcases eq_or_ne i p with hip' | hip'
          · subst hip'
            rcases eq_or_ne j p with hji | hji
            · subst hji
              exact le_refl _
            · have hgt := hCgt j (by omega) h3
              rw [hCpiv]
              omega
          · exact hCsorted i j (by omega) h2 h3 (by omega)


/-- `quicksort_inplace` returns a sorted permutation of its input. -/
lemma quicksort_inplace_sorts (arr : List Person) :
    (quicksort_inplace arr).Perm arr ∧
      List.Pairwise (fun a b => a.matricula ≤ b.matricula) (quicksort_inplace arr) := by
  unfold quicksort_inplace
  rcases Nat.eq_zero_or_pos arr.length with h0 | hpos
  · rw [qsAux_eq_base arr 0 (arr.length - 1) (by omega)]
    have : arr = [] := List.length_eq_zero.mp h0
    subst this
    exact ⟨List.Perm.refl _, List.Pairwise.nil⟩
  · obtain ⟨hlen, hperm, _, hsorted⟩ :=
      qsAux_spec arr.length arr 0 (arr.length - 1) (by omega) (by omega)
    refine ⟨hperm, ?_⟩
    apply List.pairwise_iff_getElem.mpr
    intro i j hi hj hij
    have hj' : j < arr.length := by omega
    have := hsorted i j (by omega) (by omega) (by omega) hj'
    rwa [List.getD_eq_getElem _ _ hi, List.getD_eq_getElem _ _ hj] at this

/-- `quick_sort` returns a sorted permutation of its input. -/
lemma quick_sort_sorts : ∀ (n : ℕ) (l : List Person), l.length ≤ n →
    (quick_sort l).Perm l ∧
      List.Pairwise (fun a b => a.matricula ≤ b.matricula) (quick_sort l) := by
  intro n
  induction n with
  | zero =>
    intro l hl
    have : l = [] := List.length_eq_zero.mp (by omega)
    subst this
    constructor
    · have h : quick_sort [] = [] := by rw [quick_sort]
      rw [h]
    · have h : quick_sort [] = [] := by rw [quick_sort]
      rw [h]
      exact List.Pairwise.nil
  | succ n ih =>
    intro l hl
    match l with
    | [] =>
      constructor
      · have h : quick_sort [] = [] := by rw [quick_sort]
        rw [h]
      · have h : quick_sort [] = [] := by rw [quick_sort]
        rw [h]
        exact List.Pairwise.nil
    | [a] =>
      constructor
      · have h : quick_sort [a] = [a] := by rw [quick_sort]
        rw [h]
      · have h : quick_sort [a] = [a] := by rw [quick_sort]
        rw [h]
        exact List.pairwise_singleton _ _
    | a :: b :: rest =>
      have hlow := ih ((b :: rest).filter (fun x => decide (x.matricula ≤ a.matricula)))
        (le_trans (List.length_filter_le _ _) (by simp at hl ⊢; omega))
      have hhigh := ih ((b :: rest).filter (fun x => decide (x.matricula > a.matricula)))
        (le_trans (List.length_filter_le _ _) (by simp at hl ⊢; omega))
      have hfunext : (fun x : Person => decide (x.matricula > a.matricula)) =
          (fun x : Person => !decide (x.matricula ≤ a.matricula)) := by
        funext x
        rcases le_or_lt x.matricula a.matricula with h | h
        · simp [h, not_lt.mpr h]
        · simp [h, not_le.mpr h]
      have hpartition : ((b :: rest).filter (fun x => decide (x.matricula ≤ a.matricula)) ++
          (b :: rest).filter (fun x => decide (x.matricula > a.matricula))).Perm (b :: rest) := by
        rw [hfunext]
        exact List.filter_append_perm _ _
      have hqs : quick_sort (a :: b :: rest) =
          quick_sort ((b :: rest).filter (fun x => decide (x.matricula ≤ a.matricula))) ++
            [a] ++
            quick_sort ((b :: rest).filter (fun x => decide (x.matricula > a.matricula))) := by
        rw [quick_sort]
        all_goals simp
      rw [hqs]
      constructor
      · have s1 := (hlow.1.append (List.Perm.refl [a])).append hhigh.1
        have s2 : (((b :: rest).filter (fun x => decide (x.matricula ≤ a.matricula))) ++ [a] ++
            ((b :: rest).filter (fun x => decide (x.matricula > a.matricula)))).Perm
            ([a] ++ (((b :: rest).filter (fun x => decide (x.matricula ≤ a.matricula))) ++
              ((b :: rest).filter (fun x => decide (x.matricula > a.matricula))))) :=
          List.Perm.append_right _ List.perm_append_comm
        have s4 := List.Perm.append_left [a] hpartition
        exact s1.trans (s2.trans s4)
      · rw [List.append_assoc]
        apply List.pairwise_append.mpr
        refine ⟨hlow.2, ?_, ?_⟩
        · apply List.pairwise_append.mpr
          refine ⟨List.pairwise_singleton _ _, hhigh.2, ?_⟩
          intro x hx y hy
          have hy' : y ∈ (b :: rest).filter (fun x => decide (x.matricula > a.matricula)) :=
            hhigh.1.mem_iff.mp hy
          have hygt := List.of_mem_filter hy'
          simp only [List.mem_singleton] at hx
          subst hx
          simp at hygt
          omega
        · intro x hx y hy
          have hx' : x ∈ (b :: rest).filter (fun x => decide (x.matricula ≤ a.matricula)) :=
            hlow.1.mem_iff.mp hx
          have hxle := List.of_mem_filter hx'
          simp at hxle
          rcases List.mem_append.mp hy with hy1 | hy2
          · simp only [List.mem_singleton] at hy1
            subst hy1
            exact hxle
          · have hy' : y ∈ (b :: rest).filter (fun x => decide (x.matricula > a.matricula)) :=
              hhigh.1.mem_iff.mp hy2
            have hygt := List.of_mem_filter hy'
            simp at hygt
            omega


/-- Claim C3 (failing part): `selection_sort` misplaces its `return` inside
the outer loop, so on the concrete input with matriculas `[3, 1, 2]` it
stops after the first iteration and returns `[1, 3, 2]`, which is not in
non-decreasing order of `matricula`. -/
theorem selection_sort_not_sorted :
    selection_sort [mkP 3, mkP 1, mkP 2] = some [mkP 1, mkP 3, mkP 2] ∧
      ¬ List.Pairwise (fun a b => a.matricula ≤ b.matricula)
          [mkP 1, mkP 3, mkP 2] := by
  constructor
  · rfl
  · decide

/-- Claim C10: on a list of records with pairwise-distinct matriculas,
`quick_sort` and `quicksort_inplace` return the same list: both return a
sorted permutation of the input, and a sorted permutation is unique when
the keys are distinct. -/
theorem quick_sort_eq_quicksort_inplace (l : List Person)
    (hnd : (l.map Person.matricula).Nodup) :
    quick_sort l = quicksort_inplace l := by
  obtain ⟨hqperm, hqsorted⟩ := quick_sort_sorts l.length l (le_refl _)
  obtain ⟨hiperm, hisorted⟩ := quicksort_inplace_sorts l
  have hpair : List.Pairwise (fun a b : Person => a.matricula ≠ b.matricula) l :=
    (List.pairwise_map).mp hnd
  have hq_ne : List.Pairwise (fun a b : Person => a.matricula ≠ b.matricula)
      (quick_sort l) := hqperm.pairwise_iff (fun h => h.symm) |>.mpr hpair
  have hi_ne : List.Pairwise (fun a b : Person => a.matricula ≠ b.matricula)
      (quicksort_inplace l) := hiperm.pairwise_iff (fun h => h.symm) |>.mpr hpair
  have hq_lt : List.Pairwise (fun a b : Person => a.matricula < b.matricula)
      (quick_sort l) :=
    (hqsorted.and hq_ne).imp (fun h => lt_of_le_of_ne h.1 h.2)
  have hi_lt : List.Pairwise (fun a b : Person => a.matricula < b.matricula)
      (quicksort_inplace l) :=
    (hisorted.and hi_ne).imp (fun h => lt_of_le_of_ne h.1 h.2)
  haveI : IsAntisymm Person (fun a b : Person => a.matricula < b.matricula) :=
    ⟨fun a b h1 h2 => absurd (h1.trans h2) (lt_irrefl _)⟩
  exact List.eq_of_perm_of_sorted (hqperm.trans hiperm.symm) hq_lt hi_lt

/-- Witness for C10: a concrete list with distinct matriculas. -/
theorem quick_sort_eq_quicksort_inplace_witness :
    (([mkP 3, mkP 1, mkP 2].map Person.matricula).Nodup) ∧
      quick_sort [mkP 3, mkP 1, mkP 2] = quicksort_inplace [mkP 3, mkP 1, mkP 2] :=
  ⟨by decide, quick_sort_eq_quicksort_inplace [mkP 3, mkP 1, mkP 2] (by decide)⟩

end Arrays

namespace BST

/-- Embeds the `Node` class of `src/BST/main.py`: data, left/right children
and the `height` field (initialised to 1 by `__init__`; only the AVL tree
maintains it). `nil` stands for Python's `None`. -/
inductive Node : Type
  | nil : Node
  | node (data : ℤ) (left right : Node) (height : ℕ) : Node
deriving DecidableEq

open Node

/-- Data of a node (`0` for `None`, never used there). -/
def rootData : Node → ℤ
  | .nil => 0
  | .node d _ _ _ => d

/-- Embeds `BinaryTree._insert_node`: standard BST insert that leaves the
tree unchanged on an exact duplicate, never touching `height`. -/
def bst_insert_node : Node → ℤ → Node
  | .nil, d => .node d .nil .nil 1
  | .node nd l r h, d =>
      if d < nd then .node nd (bst_insert_node l d) r h
      else if nd < d then .node nd l (bst_insert_node r d) h
      else .node nd l r h

/-- Embeds `BinaryTree._search_node` (also `AVLTree._search_node`, which is
identical): returns the node whose data matches, or `None`. -/
def bst_search_node : Node → ℤ → Option Node
  | .nil, _ => none
  | .node nd l r h, d =>
      if nd = d then some (.node nd l r h)
      else if d < nd then bst_search_node l d
      else bst_search_node r d

/-- A `BinaryTree` after inserting the given values in order into an
initially empty tree. -/
def bst_insertList (ls : List ℤ) : Node :=
  ls.foldl bst_insert_node .nil

/-- Membership of a value in a tree. -/
def containsT : Node → ℤ → Bool
  | .nil, _ => false
  | .node nd l r _, d => decide (d = nd) || containsT l d || containsT r d

/-- All data in the tree satisfy `p`. -/
def AllT (p : ℤ → Prop) : Node → Prop
  | .nil => True
  | .node d l r _ => p d ∧ AllT p l ∧ AllT p r

/-- Binary-search-tree ordering. -/
def OrderedT : Node → Prop
  | .nil => True
  | .node d l r _ => OrderedT l ∧ OrderedT r ∧ AllT (· < d) l ∧ AllT (d < ·) r

lemma AllT_imp (p q : ℤ → Prop) (hpq : ∀ y, p y → q y) :
    ∀ t, AllT p t → AllT q t := by
  intro t
  induction t with
  | nil => intro; trivial
  | node d l r h ihl ihr =>
    intro ht
    exact ⟨hpq d ht.1, ihl ht.2.1, ihr ht.2.2⟩

lemma AllT_contains (p : ℤ → Prop) :
    ∀ t y, AllT p t → containsT t y = true → p y := by
  intro t
  induction t with
  | nil => intro y _ hc; simp [containsT] at hc
  | node d l r h ihl ihr =>
    intro y hall hc
    simp only [containsT, Bool.or_eq_true, decide_eq_true_eq] at hc
    rcases hc with (hy | hy) | hy
    · exact hy ▸ hall.1
    · exact ihl y hall.2.1 hy
    · exact ihr y hall.2.2 hy

lemma AllT_bst_insert (p : ℤ → Prop) :
    ∀ t x, AllT p t → p x → AllT p (bst_insert_node t x) := by
  intro t
  induction t with
  | nil => intro x _ hx; exact ⟨hx, trivial, trivial⟩
  | node d l r h ihl ihr =>
    intro x hall hx
    unfold bst_insert_node
    rcases Decidable.em (x < d) with h1 | h1
    · rw [if_pos h1]
      exact ⟨hall.1, ihl x hall.2.1 hx, hall.2.2⟩
    · rw [if_neg h1]
      rcases Decidable.em (d < x) with h2 | h2
      · rw [if_pos h2]
        exact ⟨hall.1, hall.2.1, ihr x hall.2.2 hx⟩
      · rw [if_neg h2]
        exact hall

lemma OrderedT_bst_insert : ∀ t x, OrderedT t → OrderedT (bst_insert_node t x) := by
  intro t
  induction t with
  | nil => intro x _; exact ⟨trivial, trivial, trivial, trivial⟩
  | node d l r h ihl ihr =>
    intro x ho
    unfold bst_insert_node
    rcases Decidable.em (x < d) with h1 | h1
    · rw [if_pos h1]
      exact ⟨ihl x ho.1, ho.2.1, AllT_bst_insert _ l x ho.2.2.1 h1, ho.2.2.2⟩
    · rw [if_neg h1]
      rcases Decidable.em (d < x) with h2 | h2
      · rw [if_pos h2]
        exact ⟨ho.1, ihr x ho.2.1, ho.2.2.1, AllT_bst_insert _ r x ho.2.2.2 h2⟩
      · rw [if_neg h2]
        exact ho

lemma containsT_bst_insert : ∀ t x y,
    containsT (bst_insert_node t x) y = true ↔ (y = x ∨ containsT t y = true) := by
  intro t
  induction t with
  | nil =>
    intro x y
    simp [bst_insert_node, containsT]
  | node d l r h ihl ihr =>
    intro x y
    unfold bst_insert_node
    rcases Decidable.em (x < d) with h1 | h1
    · rw [if_pos h1]
      simp only [containsT, Bool.or_eq_true, decide_eq_true_eq, ihl]
      tauto
    · rw [if_neg h1]
      rcases Decidable.em (d < x) with h2 | h2
      · rw [if_pos h2]
        simp only [containsT, Bool.or_eq_true, decide_eq_true_eq, ihr]
        tauto
      · rw [if_neg h2]
        have hxd : x = d := by omega
        subst hxd
        simp only [containsT, Bool.or_eq_true, decide_eq_true_eq]
        tauto

lemma bst_search_some_data : ∀ t x res,
    bst_search_node t x = some res → rootData res = x := by
  intro t
  induction t with
  | nil => intro x res h; simp [bst_search_node] at h
  | node d l r h ihl ihr =>
    intro x res hres
    unfold bst_search_node at hres
    rcases Decidable.em (d = x) with h1 | h1
    · rw [if_pos h1] at hres
      cases hres
      exact h1
    · rw [if_neg h1] at hres
      rcases Decidable.em (x < d) with h2 | h2
      · rw [if_pos h2] at hres
        exact ihl x res hres
      · rw [if_neg h2] at hres
        exact ihr x res hres

lemma bst_search_isSome : ∀ t x, OrderedT t →
    ((bst_search_node t x).isSome = true ↔ containsT t x = true) := by
  intro t
  induction t with
  | nil => intro x _; simp [bst_search_node, containsT]
  | node d l r h ihl ihr =>
    intro x ho
    unfold bst_search_node
    simp only [containsT, Bool.or_eq_true, decide_eq_true_eq]
    rcases Decidable.em (d = x) with h1 | h1
    · rw [if_pos h1]
      simp [h1]
    · rw [if_neg h1]
      rcases Decidable.em (x < d) with h2 | h2
      · rw [if_pos h2]
        rw [ihl x ho.1]
        constructor
        · intro hy; tauto
        · rintro ((hy | hy) | hy)
          · omega
          · exact hy
          · exact absurd (AllT_contains _ r x ho.2.2.2 hy) (by omega)
      · rw [if_neg h2]
        rw [ihr x ho.2.1]
        constructor
        · intro hy; tauto
        · rintro ((hy | hy) | hy)
          · omega
          · exact absurd (AllT_contains _ l x ho.2.2.1 hy) (by omega)
          · exact hy

lemma bst_insertList_facts (ls : List ℤ) :
    OrderedT (bst_insertList ls) ∧
      ∀ y, containsT (bst_insertList ls) y = true ↔ y ∈ ls := by
  suffices H : ∀ (ls : List ℤ) (t : Node), OrderedT t →
      OrderedT (ls.foldl bst_insert_node t) ∧
      ∀ y, containsT (ls.foldl bst_insert_node t) y = true ↔
        (y ∈ ls ∨ containsT t y = true) by
    have := H ls .nil trivial
    refine ⟨this.1, fun y => (this.2 y).trans ?_⟩
    simp [containsT]
  intro ls
  induction ls with
  | nil =>
    intro t ht
    exact ⟨ht, fun y => by simp⟩
  | cons x rest ih =>
    intro t ht
    have hstep := ih (bst_insert_node t x) (OrderedT_bst_insert t x ht)
    refine ⟨hstep.1, fun y => (hstep.2 y).trans ?_⟩
    rw [containsT_bst_insert t x y]
    simp only [List.mem_cons]
    tauto

/-- Claim C8: after inserting a list of values into an initially empty
`BinaryTree`, `search x` returns a node whose `data` equals `x` exactly
when `x` was inserted, and `None` otherwise. -/
theorem bst_search_correct (ls : List ℤ) (x : ℤ) :
    (x ∈ ls → ∃ res, bst_search_node (bst_insertList ls) x = some res ∧
      rootData res = x) ∧
    (x ∉ ls → bst_search_node (bst_insertList ls) x = none) := by
  obtain ⟨hord, hcont⟩ := bst_insertList_facts ls
  constructor
  · intro hx
    have := (bst_search_isSome (bst_insertList ls) x hord).mpr ((hcont x).mpr hx)
    obtain ⟨res, hres⟩ := Option.isSome_iff_exists.mp this
    exact ⟨res, hres, bst_search_some_data _ x res hres⟩
  · intro hx
    have hnc : containsT (bst_insertList ls) x = false := by
      rcases Bool.eq_false_or_eq_true (containsT (bst_insertList ls) x) with h | h
      · exact absurd ((hcont x).mp h) hx
      · exact h
    rcases hsr : bst_search_node (bst_insertList ls) x with _ | res
    · rfl
    · have : (bst_search_node (bst_insertList ls) x).isSome = true := by
        rw [hsr]; rfl
      rw [bst_search_isSome _ x hord] at this
      rw [this] at hnc
      cases hnc

/-- Witness for C8: searching an inserted value and a missing one in the
tree built from `[2, 1, 3]`. -/
theorem bst_search_correct_witness :
    ((1 : ℤ) ∈ [(2 : ℤ), 1, 3] ∧
      ∃ res, bst_search_node (bst_insertList [2, 1, 3]) 1 = some res ∧
        rootData res = 1) ∧
    ((4 : ℤ) ∉ [(2 : ℤ), 1, 3] ∧
      bst_search_node (bst_insertList [2, 1, 3]) 4 = none) :=
  ⟨⟨by decide, (bst_search_correct [2, 1, 3] 1).1 (by decide)⟩,
    ⟨by decide, (bst_search_correct [2, 1, 3] 4).2 (by decide)⟩⟩


/-- Embeds `AVLTree._get_height`: the stored height, `0` for `None`. -/
def get_height : Node → ℕ
  | .nil => 0
  | .node _ _ _ h => h

/-- Embeds `AVLTree._get_balance`: stored height of the left child minus
stored height of the right child. -/
def get_balance : Node → ℤ
  | .nil => 0
  | .node _ l r _ => (get_height l : ℤ) - (get_height r : ℤ)

/-- Embeds `AVLTree._right_rotate`. The fallback arm is unreachable in the
rebalancing cases (Python would raise on a missing left child). -/
def right_rotate : Node → Node
  | .node zd (.node yd yl yr _) zr _ =>
      let z' := Node.node zd yr zr (1 + max (get_height yr) (get_height zr))
      Node.node yd yl z' (1 + max (get_height yl) (get_height z'))
  | t => t

/-- Embeds `AVLTree._left_rotate`. -/
def left_rotate : Node → Node
  | .node zd zl (.node yd yl yr _) _ =>
      let z' := Node.node zd zl yl (1 + max (get_height zl) (get_height yl))
      Node.node yd z' yr (1 + max (get_height z') (get_height yr))
  | t => t

/-- Embeds `AVLTree._insert_node`: BST insert (duplicates to the right),
height update, then the four rotation cases dispatched on the balance and
on comparing the inserted data with the child's data. -/
def avl_insert_node : Node → ℤ → Node
  | .nil, d => .node d .nil .nil 1
  | .node nd l r _, d =>
      let l' := if d < nd then avl_insert_node l d else l
      let r' := if d < nd then r else avl_insert_node r d
      let n := Node.node nd l' r' (1 + max (get_height l') (get_height r'))
      if 1 < get_balance n ∧ d < rootData l' then right_rotate n
      else if get_balance n < -1 ∧ rootData r' < d then left_rotate n
      else if 1 < get_balance n ∧ rootData l' < d then
        right_rotate (Node.node nd (left_rotate l') r'
          (1 + max (get_height l') (get_height r')))
      else if get_balance n < -1 ∧ d < rootData r' then
        left_rotate (Node.node nd l' (right_rotate r')
          (1 + max (get_height l') (get_height r')))
      else n

/-- An `AVLTree` after inserting the given values in order into an
initially empty tree. -/
def avl_insertList (ls : List ℤ) : Node :=
  ls.foldl avl_insert_node .nil

/-- The actual height of a tree, ignoring the stored `height` fields. -/
def realHeight : Node → ℕ
  | .nil => 0
  | .node _ l r _ => 1 + max (realHeight l) (realHeight r)

/-- The AVL property exactly as claimed: at every node the real heights of
the two subtrees differ by at most 1, and the stored height field equals
1 plus the maximum of the children's real heights. -/
def satisfiesAVL : Node → Bool
  | .nil => true
  | .node _ l r h =>
      satisfiesAVL l && satisfiesAVL r &&
        decide (realHeight l ≤ realHeight r + 1) &&
        decide (realHeight r ≤ realHeight l + 1) &&
        (h == 1 + max (realHeight l) (realHeight r))

/-- Working invariant: same as `satisfiesAVL` but phrased on the stored
heights (equivalent, since the height fields are correct). -/
def AvlOK : Node → Prop
  | .nil => True
  | .node _ l r h => AvlOK l ∧ AvlOK r ∧
      h = 1 + max (get_height l) (get_height r) ∧
      get_height l ≤ get_height r + 1 ∧ get_height r ≤ get_height l + 1

lemma AvlOK_height_eq : ∀ t, AvlOK t → get_height t = realHeight t := by
  intro t
  induction t with
  | nil => intro; rfl
  | node d l r h ihl ihr =>
    intro hok
    simp only [get_height, realHeight]
    rw [hok.2.2.1, ihl hok.1, ihr hok.2.1]

lemma AvlOK_satisfiesAVL : ∀ t, AvlOK t → satisfiesAVL t = true := by
  intro t
  induction t with
  | nil => intro; rfl
  | node d l r h ihl ihr =>
    intro hok
    simp only [satisfiesAVL, Bool.and_eq_true, beq_iff_eq, decide_eq_true_eq]
    rw [← AvlOK_height_eq l hok.1, ← AvlOK_height_eq r hok.2.1]
    exact ⟨⟨⟨⟨ihl hok.1, ihr hok.2.1⟩, hok.2.2.2.1⟩, hok.2.2.2.2⟩, hok.2.2.1⟩

lemma containsT_right_rotate : ∀ t y, containsT (right_rotate t) y = containsT t y := by
  intro t y
  match t with
  | .nil => rfl
  | .node zd .nil zr h => rfl
  | .node zd (.node yd yl yr hy) zr h =>
    simp only [right_rotate, containsT]
    rw [Bool.eq_iff_iff]
    simp only [Bool.or_eq_true, decide_eq_true_eq]
    tauto

lemma containsT_left_rotate : ∀ t y, containsT (left_rotate t) y = containsT t y := by
  intro t y
  match t with
  | .nil => rfl
  | .node zd zl .nil h => rfl
  | .node zd zl (.node yd yl yr hy) h =>
    simp only [left_rotate, containsT]
    rw [Bool.eq_iff_iff]
    simp only [Bool.or_eq_true, decide_eq_true_eq]
    tauto


lemma get_height_nil : get_height Node.nil = 0 := rfl

lemma get_height_node (d : ℤ) (l r : Node) (h : ℕ) :
    get_height (Node.node d l r h) = h := rfl

lemma get_balance_node (d : ℤ) (l r : Node) (h : ℕ) :
    get_balance (Node.node d l r h) = (get_height l : ℤ) - (get_height r : ℤ) := rfl

lemma rootData_node (d : ℤ) (l r : Node) (h : ℕ) :
    rootData (Node.node d l r h) = d := rfl

/-- Defining equation of `avl_insert_node` on a node, with the two
`if d < nd` choices already resolved into the four rotation dispatch. -/
lemma avl_insert_node_node (nd : ℤ) (l r : Node) (h0 : ℕ) (d : ℤ) :
    avl_insert_node (Node.node nd l r h0) d =
      (let l' := if d < nd then avl_insert_node l d else l
       let r' := if d < nd then r else avl_insert_node r d
       let n := Node.node nd l' r' (1 + max (get_height l') (get_height r'))
       if 1 < get_balance n ∧ d < rootData l' then right_rotate n
       else if get_balance n < -1 ∧ rootData r' < d then left_rotate n
       else if 1 < get_balance n ∧ rootData l' < d then
         right_rotate (Node.node nd (left_rotate l') r'
           (1 + max (get_height l') (get_height r')))
       else if get_balance n < -1 ∧ d < rootData r' then
         left_rotate (Node.node nd l' (right_rotate r')
           (1 + max (get_height l') (get_height r')))
       else n) := rfl

set_option maxHeartbeats 12000000 in
/-- Main AVL lemma: inserting a value not already present into a tree
satisfying the AVL invariant preserves the invariant; the (stored) height
grows by at most one; values only grow by the inserted one; and when the
height did grow, no top-level rotation happened (the root keeps its data
and the unrotated shape). -/
lemma avl_insert_main (x : ℤ) : ∀ t, AvlOK t → containsT t x = false →
    AvlOK (avl_insert_node t x) ∧
    get_height t ≤ get_height (avl_insert_node t x) ∧
    get_height (avl_insert_node t x) ≤ get_height t + 1 ∧
    (∀ y, containsT (avl_insert_node t x) y = true → y = x ∨ containsT t y = true) ∧
    (∀ nd l r h, t = .node nd l r h →
      get_height (avl_insert_node t x) = get_height t + 1 →
      avl_insert_node t x =
        if x < nd
        then Node.node nd (avl_insert_node l x) r
          (1 + max (get_height (avl_insert_node l x)) (get_height r))
        else Node.node nd l (avl_insert_node r x)
          (1 + max (get_height l) (get_height (avl_insert_node r x)))) := by
  intro t
  induction t with
  | nil =>
    intro _ _
    refine ⟨⟨trivial, trivial, by simp [get_height], by simp [get_height],
      by simp [get_height]⟩,
      by simp [avl_insert_node, get_height], by simp [avl_insert_node, get_height], ?_, ?_⟩
    · intro y hy
      left
      simpa [avl_insert_node, containsT] using hy
    · intro nd l r h heq
      cases heq
  | node nd l r h0 ihl ihr =>
    intro hok hcont
    obtain ⟨okl, okr, hh0, hbl, hbr⟩ := hok
    simp only [containsT, Bool.or_eq_false_iff, decide_eq_false_iff_not] at hcont
    obtain ⟨⟨hxnd, hcl⟩, hcr⟩ := hcont
    rcases Decidable.em (x < nd) with hx | hx
    · -- insertion goes left
      obtain ⟨okl', hge, hle, hcontl', hshape⟩ := ihl okl hcl
      clear ihl ihr
      rw [avl_insert_node_node]
      simp only [if_pos hx, get_balance_node, get_height_node]
      rcases Decidable.em (get_height r + 2 ≤ get_height (avl_insert_node l x)) with
        hbal | hbal
      · -- double-heavy left: a rotation happens
        have h1 : get_height l = get_height r + 1 := by omega
        have h2 : get_height (avl_insert_node l x) = get_height l + 1 := by omega
        cases l with
        | nil => rw [get_height_nil] at h1; omega
        | node ld la lb lh =>
        obtain ⟨okla, oklb, hlh, hbl1, hbl2⟩ := okl
        simp only [containsT, Bool.or_eq_false_iff, decide_eq_false_iff_not] at hcl
        obtain ⟨⟨hxld, hcla⟩, hclb⟩ := hcl
        have hsh := hshape ld la lb lh rfl h2
        rw [get_height_node] at h1 h2 hh0 hbl hbr
        rcases Decidable.em (x < ld) with hxld' | hxld'
        · -- left-left: single right rotation
          rw [if_pos hxld'] at hsh
          rw [hsh] at okl' h2 hbal
          obtain ⟨okla', oklb', hHa, hb1', hb2'⟩ := okl'
          rw [get_height_node] at h2 hbal
          have e1 : get_height (avl_insert_node la x) = get_height lb + 1 := by omega
          have e3 : get_height r = get_height lb := by omega
          have hc1 : 1 < (get_height (avl_insert_node (Node.node ld la lb lh) x) : ℤ) -
              (get_height r : ℤ) ∧ x < rootData (avl_insert_node (Node.node ld la lb lh) x) := by
            rw [hsh, get_height_node, rootData_node]
            exact ⟨by omega, hxld'⟩
          rw [if_pos hc1, hsh]
          simp only [right_rotate, get_height_node]
          refine ⟨?_, ?_, ?_, ?_, ?_⟩
          · exact ⟨okla', ⟨oklb', okr, rfl, by omega, by omega⟩, rfl,
              by simp only [get_height_node]; omega,
              by simp only [get_height_node]; omega⟩
          · omega
          · omega
          · intro y hy
            simp only [containsT, Bool.or_eq_true, decide_eq_true_eq] at hy
            have hla : ∀ z, containsT (avl_insert_node la x) z = true →
                z = x ∨ ((z = ld ∨ containsT la z = true) ∨ containsT lb z = true) := by
              intro z hz
              have hm : containsT (avl_insert_node (Node.node ld la lb lh) x) z = true := by
                rw [hsh]
                simp only [containsT, Bool.or_eq_true, decide_eq_true_eq]
                exact Or.inl (Or.inr hz)
              rcases hcontl' z hm with h | h
              · exact Or.inl h
              · simp only [containsT, Bool.or_eq_true, decide_eq_true_eq] at h
                exact Or.inr h
            simp only [containsT, Bool.or_eq_true, decide_eq_true_eq]
            rcases hy with (hy | hy) | (hy | hy) | hy
            · exact Or.inr (Or.inl (Or.inr (Or.inl (Or.inl hy))))
            · rcases hla y hy with h | h
              · exact Or.inl h
              · exact Or.inr (Or.inl (Or.inr h))
            · exact Or.inr (Or.inl (Or.inl hy))
            · exact Or.inr (Or.inl (Or.inr (Or.inr hy)))
            · exact Or.inr (Or.inr hy)
          · intro nd₂ l₂ r₂ h₂ heq hgrow
            exfalso
            omega
        · -- left-right: left rotation on the child, then right rotation
          rw [if_neg hxld'] at hsh
          have hldx : ld < x := by omega
          rw [hsh] at okl' h2 hbal
          obtain ⟨okla', oklb', hHa, hb1', hb2'⟩ := okl'
          rw [get_height_node] at h2 hbal
          have e1 : get_height (avl_insert_node lb x) = get_height la + 1 := by omega
          have e3 : get_height r = get_height la := by omega
          rcases hw : avl_insert_node lb x with _ | ⟨wd, wa, wb, wh⟩
          · rw [hw, get_height_nil] at e1; omega
          · rw [hw] at oklb' e1
            obtain ⟨okwa, okwb, hwh, hwb1, hwb2⟩ := oklb'
            rw [get_height_node] at e1
            have hc1 : ¬(1 < (get_height (avl_insert_node (Node.node ld la lb lh) x) : ℤ) -
                (get_height r : ℤ) ∧ x < rootData (avl_insert_node (Node.node ld la lb lh) x)) := by
              rw [hsh, rootData_node]
              rintro ⟨-, hcc⟩
              omega
            have hc2 : ¬((get_height (avl_insert_node (Node.node ld la lb lh) x) : ℤ) -
                (get_height r : ℤ) < -1 ∧ rootData r < x) := by
              rw [hsh, get_height_node]
              rintro ⟨hcc, -⟩
              omega
            have hc3 : 1 < (get_height (avl_insert_node (Node.node ld la lb lh) x) : ℤ) -
                (get_height r : ℤ) ∧ rootData (avl_insert_node (Node.node ld la lb lh) x) < x := by
              rw [hsh, get_height_node, rootData_node]
              exact ⟨by omega, hldx⟩
            rw [if_neg hc1, if_neg hc2, if_pos hc3, hsh, hw]
            simp only [left_rotate, right_rotate, get_height_node]
            refine ⟨?_, ?_, ?_, ?_, ?_⟩
            · exact ⟨⟨okla, okwa, rfl, by omega, by omega⟩,
                ⟨okwb, okr, rfl, by omega, by omega⟩, rfl,
                by simp only [get_height_node]; omega,
                by simp only [get_height_node]; omega⟩
            · omega
            · omega
            · intro y hy
              simp only [containsT, Bool.or_eq_true, decide_eq_true_eq] at hy
              have hlb : ∀ z, containsT (avl_insert_node lb x) z = true →
                  z = x ∨ ((z = ld ∨ containsT la z = true) ∨ containsT lb z = true) := by
                intro z hz
                have hm : containsT (avl_insert_node (Node.node ld la lb lh) x) z = true := by
                  rw [hsh]
                  simp only [containsT, Bool.or_eq_true, decide_eq_true_eq]
                  exact Or.inr hz
                rcases hcontl' z hm with h | h
                · exact Or.inl h
                · simp only [containsT, Bool.or_eq_true, decide_eq_true_eq] at h
                  exact Or.inr h
              have hwmem : ∀ z, (z = wd ∨ containsT wa z = true) ∨ containsT wb z = true →
                  containsT (avl_insert_node lb x) z = true := by
                intro z hz
                rw [hw]
                simp only [containsT, Bool.or_eq_true, decide_eq_true_eq]
                exact hz
              simp only [containsT, Bool.or_eq_true, decide_eq_true_eq]
              rcases hy with (hy | ((hy | hy) | hy)) | ((hy | hy) | hy)
              · rcases hlb y (hwmem y (Or.inl (Or.inl hy))) with h | h
                · exact Or.inl h
                · exact Or.inr (Or.inl (Or.inr h))
              · exact Or.inr (Or.inl (Or.inr (Or.inl (Or.inl hy))))
              · exact Or.inr (Or.inl (Or.inr (Or.inl (Or.inr hy))))
              · rcases hlb y (hwmem y (Or.inl (Or.inr hy))) with h | h
                · exact Or.inl h
                · exact Or.inr (Or.inl (Or.inr h))
              · exact Or.inr (Or.inl (Or.inl hy))
              · rcases hlb y (hwmem y (Or.inr hy)) with h | h
                · exact Or.inl h
                · exact Or.inr (Or.inl (Or.inr h))
              · exact Or.inr (Or.inr hy)
            · intro nd₂ l₂ r₂ h₂ heq hgrow
              exfalso
              omega
      · -- no rotation at this node
        have hc1 : ¬(1 < (get_height (avl_insert_node l x) : ℤ) - (get_height r : ℤ) ∧
            x < rootData (avl_insert_node l x)) := by
          rintro ⟨hcc, -⟩
          omega
        have hc2 : ¬((get_height (avl_insert_node l x) : ℤ) - (get_height r : ℤ) < -1 ∧
            rootData r < x) := by
          rintro ⟨hcc, -⟩
          omega
        have hc3 : ¬(1 < (get_height (avl_insert_node l x) : ℤ) - (get_height r : ℤ) ∧
            rootData (avl_insert_node l x) < x) := by
          rintro ⟨hcc, -⟩
          omega
        have hc4 : ¬((get_height (avl_insert_node l x) : ℤ) - (get_height r : ℤ) < -1 ∧
            x < rootData r) := by
          rintro ⟨hcc, -⟩
          omega
        rw [if_neg hc1, if_neg hc2, if_neg hc3, if_neg hc4]
        refine ⟨⟨okl', okr, rfl, by omega, by omega⟩, ?_, ?_, ?_, ?_⟩
        · simp only [get_height_node]
          omega
        · simp only [get_height_node]
          omega
        · intro y hy
          simp only [containsT, Bool.or_eq_true, decide_eq_true_eq] at hy ⊢
          rcases hy with (hy | hy) | hy
          · tauto
          · rcases hcontl' y hy with h | h
            · exact Or.inl h
            · tauto
          · tauto
        · intro nd₂ l₂ r₂ h₂ heq hgrow
          injection heq with e₁ e₂ e₃ e₄
          subst e₁; subst e₂; subst e₃
          rw [if_pos hx]
    · -- insertion goes right
      have hndx : nd < x := by omega
      obtain ⟨okr', hge, hle, hcontr', hshape⟩ := ihr okr hcr
      clear ihl ihr
      rw [avl_insert_node_node]
      simp only [if_neg hx, get_balance_node, get_height_node]
      rcases Decidable.em (get_height l + 2 ≤ get_height (avl_insert_node r x)) with
        hbal | hbal
      · -- double-heavy right: a rotation happens
        have h1 : get_height r = get_height l + 1 := by omega
        have h2 : get_height (avl_insert_node r x) = get_height r + 1 := by omega
        cases r with
        | nil => rw [get_height_nil] at h1; omega
        | node rd ra rb rh =>
        obtain ⟨okra, okrb, hrh, hbr1, hbr2⟩ := okr
        simp only [containsT, Bool.or_eq_false_iff, decide_eq_false_iff_not] at hcr
        obtain ⟨⟨hxrd, hcra⟩, hcrb⟩ := hcr
        have hsh := hshape rd ra rb rh rfl h2
        rw [get_height_node] at h1 h2 hh0 hbl hbr
        rcases Decidable.em (x < rd) with hxrd' | hxrd'
        · -- right-left: right rotation on the child, then left rotation
          rw [if_pos hxrd'] at hsh
          rw [hsh] at okr' h2 hbal
          obtain ⟨okra', okrb', hHa, hb1', hb2'⟩ := okr'
          rw [get_height_node] at h2 hbal
          have e1 : get_height (avl_insert_node ra x) = get_height rb + 1 := by omega
          have e3 : get_height l = get_height rb := by omega
          rcases hw : avl_insert_node ra x with _ | ⟨wd, wa, wb, wh⟩
          · rw [hw, get_height_nil] at e1; omega
          · rw [hw] at okra' e1
            obtain ⟨okwa, okwb, hwh, hwb1, hwb2⟩ := okra'
            rw [get_height_node] at e1
            have hc1 : ¬(1 < (get_height l : ℤ) -
                (get_height (avl_insert_node (Node.node rd ra rb rh) x) : ℤ) ∧
                x < rootData l) := by
              rw [hsh, get_height_node]
              rintro ⟨hcc, -⟩
              omega
            have hc2 : ¬((get_height l : ℤ) -
                (get_height (avl_insert_node (Node.node rd ra rb rh) x) : ℤ) < -1 ∧
                rootData (avl_insert_node (Node.node rd ra rb rh) x) < x) := by
              rw [hsh, rootData_node]
              rintro ⟨-, hcc⟩
              omega
            have hc3 : ¬(1 < (get_height l : ℤ) -
                (get_height (avl_insert_node (Node.node rd ra rb rh) x) : ℤ) ∧
                rootData l < x) := by
              rw [hsh, get_height_node]
              rintro ⟨hcc, -⟩
              omega
            have hc4 : (get_height l : ℤ) -
                (get_height (avl_insert_node (Node.node rd ra rb rh) x) : ℤ) < -1 ∧
                x < rootData (avl_insert_node (Node.node rd ra rb rh) x) := by
              rw [hsh, get_height_node, rootData_node]
              exact ⟨by omega, hxrd'⟩
            rw [if_neg hc1, if_neg hc2, if_neg hc3, if_pos hc4, hsh, hw]
            simp only [left_rotate, right_rotate, get_height_node]
            refine ⟨?_, ?_, ?_, ?_, ?_⟩
            · exact ⟨⟨okl, okwa, rfl, by omega, by omega⟩,
                ⟨okwb, okrb, rfl, by omega, by omega⟩, rfl,
                by simp only [get_height_node]; omega,
                by simp only [get_height_node]; omega⟩
            · omega
            · omega
            · intro y hy
              simp only [containsT, Bool.or_eq_true, decide_eq_true_eq] at hy
              have hra : ∀ z, containsT (avl_insert_node ra x) z = true →
                  z = x ∨ ((z = rd ∨ containsT ra z = true) ∨ containsT rb z = true) := by
                intro z hz
                have hm : containsT (avl_insert_node (Node.node rd ra rb rh) x) z = true := by
                  rw [hsh]
                  simp only [containsT, Bool.or_eq_true, decide_eq_true_eq]
                  exact Or.inl (Or.inr hz)
                rcases hcontr' z hm with h | h
                · exact Or.inl h
                · simp only [containsT, Bool.or_eq_true, decide_eq_true_eq] at h
                  exact Or.inr h
              have hwmem : ∀ z, (z = wd ∨ containsT wa z = true) ∨ containsT wb z = true →
                  containsT (avl_insert_node ra x) z = true := by
                intro z hz
                rw [hw]
                simp only [containsT, Bool.or_eq_true, decide_eq_true_eq]
                exact hz
              simp only [containsT, Bool.or_eq_true, decide_eq_true_eq]
              rcases hy with (hy | ((hy | hy) | hy)) | ((hy | hy) | hy)
              · rcases hra y (hwmem y (Or.inl (Or.inl hy))) with h | h
                · exact Or.inl h
                · exact Or.inr (Or.inr h)
              · exact Or.inr (Or.inl (Or.inl hy))
              · exact Or.inr (Or.inl (Or.inr hy))
              · rcases hra y (hwmem y (Or.inl (Or.inr hy))) with h | h
                · exact Or.inl h
                · exact Or.inr (Or.inr h)
              · exact Or.inr (Or.inr (Or.inl (Or.inl hy)))
              · rcases hra y (hwmem y (Or.inr hy)) with h | h
                · exact Or.inl h
                · exact Or.inr (Or.inr h)
              · exact Or.inr (Or.inr (Or.inr hy))
            · intro nd₂ l₂ r₂ h₂ heq hgrow
              exfalso
              omega
        · -- right-right: single left rotation
          have hrdx : rd < x := by omega
          rw [if_neg hxrd'] at hsh
          rw [hsh] at okr' h2 hbal
          obtain ⟨okra', okrb', hHa, hb1', hb2'⟩ := okr'
          rw [get_height_node] at h2 hbal
          have e1 : get_height (avl_insert_node rb x) = get_height ra + 1 := by omega
          have e3 : get_height l = get_height ra := by omega
          have hc1 : ¬(1 < (get_height l : ℤ) -
              (get_height (avl_insert_node (Node.node rd ra rb rh) x) : ℤ) ∧
              x < rootData l) := by
            rw [hsh, get_height_node]
            rintro ⟨hcc, -⟩
            omega
          have hc2 : (get_height l : ℤ) -
              (get_height (avl_insert_node (Node.node rd ra rb rh) x) : ℤ) < -1 ∧
              rootData (avl_insert_node (Node.node rd ra rb rh) x) < x := by
            rw [hsh, get_height_node, rootData_node]
            exact ⟨by omega, hrdx⟩
          rw [if_neg hc1, if_pos hc2, hsh]
          simp only [left_rotate, get_height_node]
          refine ⟨?_, ?_, ?_, ?_, ?_⟩
          · exact ⟨⟨okl, okra', rfl, by omega, by omega⟩, okrb', rfl,
              by simp only [get_height_node]; omega,
              by simp only [get_height_node]; omega⟩
          · omega
          · omega
          · intro y hy
            simp only [containsT, Bool.or_eq_true, decide_eq_true_eq] at hy
            have hrb : ∀ z, containsT (avl_insert_node rb x) z = true →
                z = x ∨ ((z = rd ∨ containsT ra z = true) ∨ containsT rb z = true) := by
              intro z hz
              have hm : containsT (avl_insert_node (Node.node rd ra rb rh) x) z = true := by
                rw [hsh]
                simp only [containsT, Bool.or_eq_true, decide_eq_true_eq]
                exact Or.inr hz
              rcases hcontr' z hm with h | h
              · exact Or.inl h
              · simp only [containsT, Bool.or_eq_true, decide_eq_true_eq] at h
                exact Or.inr h
            simp only [containsT, Bool.or_eq_true, decide_eq_true_eq]
            rcases hy with (hy | ((hy | hy) | hy)) | hy
            · exact Or.inr (Or.inr (Or.inl (Or.inl hy)))
            · exact Or.inr (Or.inl (Or.inl hy))
            · exact Or.inr (Or.inl (Or.inr hy))
            · exact Or.inr (Or.inr (Or.inl (Or.inr hy)))
            · rcases hrb y hy with h | h
              · exact Or.inl h
              · exact Or.inr (Or.inr h)
          · intro nd₂ l₂ r₂ h₂ heq hgrow
            exfalso
            omega
      · -- no rotation at this node
        have hc1 : ¬(1 < (get_height l : ℤ) - (get_height (avl_insert_node r x) : ℤ) ∧
            x < rootData l) := by
          rintro ⟨hcc, -⟩
          omega
        have hc2 : ¬((get_height l : ℤ) - (get_height (avl_insert_node r x) : ℤ) < -1 ∧
            rootData (avl_insert_node r x) < x) := by
          rintro ⟨hcc, -⟩
          omega
        have hc3 : ¬(1 < (get_height l : ℤ) - (get_height (avl_insert_node r x) : ℤ) ∧
            rootData l < x) := by
          rintro ⟨hcc, -⟩
          omega
        have hc4 : ¬((get_height l : ℤ) - (get_height (avl_insert_node r x) : ℤ) < -1 ∧
            x < rootData (avl_insert_node r x)) := by
          rintro ⟨hcc, -⟩
          omega
        rw [if_neg hc1, if_neg hc2, if_neg hc3, if_neg hc4]
        refine ⟨⟨okl, okr', rfl, by omega, by omega⟩, ?_, ?_, ?_, ?_⟩
        · simp only [get_height_node]
          omega
        · simp only [get_height_node]
          omega
        · intro y hy
          simp only [containsT, Bool.or_eq_true, decide_eq_true_eq] at hy ⊢
          rcases hy with (hy | hy) | hy
          · tauto
          · tauto
          · rcases hcontr' y hy with h | h
            · exact Or.inl h
            · tauto
        · intro nd₂ l₂ r₂ h₂ heq hgrow
          injection heq with e₁ e₂ e₃ e₄
          subst e₁; subst e₂; subst e₃
          rw [if_neg hx]


/-- Claim C1 (amended): after inserting any sequence of pairwise-distinct
values into an initially empty `AVLTree`, every node of the tree satisfies
the AVL property: the real heights of its subtrees differ by at most one
and its stored height field is 1 plus the maximum of the children's
heights. -/
theorem avl_insertList_satisfiesAVL (ls : List ℤ) (hnd : ls.Nodup) :
    satisfiesAVL (avl_insertList ls) = true := by
  suffices H : ∀ (ls : List ℤ) (t : Node), ls.Nodup → AvlOK t →
      (∀ y, containsT t y = true → y ∈ ls → False) →
      AvlOK (ls.foldl avl_insert_node t) by
    exact AvlOK_satisfiesAVL _
      (H ls .nil hnd trivial (fun y hy _ => by simp [containsT] at hy))
  intro ls
  induction ls with
  | nil => intro t _ hok _; exact hok
  | cons a rest ih =>
    intro t hnd hok hdisj
    simp only [List.nodup_cons] at hnd
    have hca : containsT t a = false := by
      rcases Bool.eq_false_or_eq_true (containsT t a) with h | h
      · exact absurd (hdisj a h (by simp)) not_false
      · exact h
    obtain ⟨hok', _, _, hcont', _⟩ := avl_insert_main a t hok hca
    refine ih (avl_insert_node t a) hnd.2 hok' ?_
    intro y hy hmem
    rcases hcont' y hy with h | h
    · exact hnd.1 (h ▸ hmem)
    · exact hdisj y h (by simp [hmem])

/-- Witness for the amended C1 at a concrete distinct-valued insertion
sequence that exercises all four rotation cases. -/
theorem avl_insertList_satisfiesAVL_witness :
    ([20, 10, 30, 5, 15, 25, 40, 1, 7, 13] : List ℤ).Nodup ∧
      satisfiesAVL (avl_insertList [20, 10, 30, 5, 15, 25, 40, 1, 7, 13]) = true :=
  ⟨by decide, avl_insertList_satisfiesAVL [20, 10, 30, 5, 15, 25, 40, 1, 7, 13] (by decide)⟩

/-- Counterexample to C1 as stated: inserting `[20, 10, 10]` (duplicates
allowed) leaves the root with subtree heights 2 and 0, because with
`data == node.left.data` neither `data < node.left.data` nor
`data > node.left.data` holds and no rotation case fires. -/
theorem avl_insertList_counterexample :
    satisfiesAVL (avl_insertList [20, 10, 10]) = false := by decide

end BST

/-! ## Graph generators and Dijkstra
(`graph_dijkstra_bfs_dfs/generate_graph.py`, `graph_ganancious_search/busca_gananciosa.py`,
`graph_dijkstra_bfs_dfs/dijkstra_metrics.py`)

Randomness is modelled by an oracle recording the value of each `random` call;
theorems assume only the `randint` range contract.  Unbounded `while` loops get a
fuel parameter; the bounded retry loop gets its exact attempt budget. -/

namespace Graphs

/-- An edge list: `(u, v, w)` is an undirected edge between `u` and `v` of weight `w`.
`networkx.Graph` stores each undirected edge once; `add_edge` appends it. -/
abbrev EdgeList := List (String × String × ℕ)

/-- The oracle standing for the seeded Python `random` module: `randint i lo hi` is the
value of the `i`-th `random.randint(lo, hi)` call, `sample2 i` the pair returned by the
`i`-th `random.sample(cidades, 2)` call. -/
structure RNG where
  randint : ℕ → ℕ → ℕ → ℕ
  sample2 : ℕ → String × String

/-- The fixed city list shared by both generators. -/
def cidades : List String :=
  ["São Paulo", "Rio de Janeiro", "Belo Horizonte", "Curitiba",
   "Porto Alegre", "Florianópolis", "Campinas", "Santos",
   "Brasília", "Goiânia", "Salvador", "Vitória"]

/-- Embedding of `G.has_edge(u, v)` on an undirected edge list. -/
def hasEdge (g : EdgeList) (u v : String) : Bool :=
  g.any fun e => (e.1 == u && e.2.1 == v) || (e.1 == v && e.2.1 == u)

/-- Embedding of `G.add_edge(u, v, weight=w)` (the generators only call it on absent edges). -/
def addEdge (g : EdgeList) (u v : String) (w : ℕ) : EdgeList :=
  g ++ [(u, v, w)]

/-- The spanning-chain loop `for i in range(len(cidades) - 1): ... add_edge(cidades[i],
cidades[i+1], randint(100, 1000))` common to both generators. -/
def chainEdges (o : RNG) : EdgeList :=
  (List.range (cidades.length - 1)).foldl
    (fun g i => addEdge g (cidades.getD i "") (cidades.getD (i + 1) "") (o.randint i 100 1000))
    []

/-- The extra-edge loop: while the graph has fewer than `target` edges (and attempts
remain), sample two cities and add an edge of weight `randint(100, 1000)` if absent.
In `generate_graph` the `while` is unbounded, so `fuel` is a termination surrogate;
in `create_brazilian_cities_graph` the loop itself stops after `max_attempts = 50`
iterations, so there `fuel` is exactly the remaining attempt budget. -/
def edgeLoop (o : RNG) (target : ℕ) : ℕ → ℕ → EdgeList → EdgeList
  | 0, _, g => g
  | fuel + 1, c, g =>
    if g.length < target then
      let uv := o.sample2 c
      let g' := if hasEdge g uv.1 uv.2 then g
                else addEdge g uv.1 uv.2 (o.randint c 100 1000)
      edgeLoop o target fuel (c + 1) g'
    else g

/-- Embedding of `generate_graph` in `graph_dijkstra_bfs_dfs/generate_graph.py`: chain plus
`num_arestas_extras = 5` extra edges. -/
def generate_graph (o : RNG) (fuel : ℕ) : EdgeList :=
  edgeLoop o (cidades.length + 5) fuel (cidades.length - 1) (chainEdges o)

/-- Embedding of `GraphGenerator.create_brazilian_cities_graph` in
`graph_ganancious_search/busca_gananciosa.py`: chain plus `extra_edges = 8` extra edges,
trying at most `max_attempts = 50` samples. -/
def create_brazilian_cities_graph (o : RNG) : EdgeList :=
  edgeLoop o (cidades.length - 1 + 8) 50 (cidades.length - 1) (chainEdges o)

/-- Weights produced by `addEdge` calls with in-range weights stay in range. -/
lemma addEdge_weights {g : EdgeList} {u v : String} {w : ℕ}
    (hg : ∀ e ∈ g, 100 ≤ e.2.2 ∧ e.2.2 ≤ 1000) (hw : 100 ≤ w ∧ w ≤ 1000) :
    ∀ e ∈ addEdge g u v w, 100 ≤ e.2.2 ∧ e.2.2 ≤ 1000 := by
  intro e he
  rcases List.mem_append.1 he with h | h
  · exact hg e h
  · rcases List.mem_singleton.1 h with rfl
    exact hw

lemma chainEdges_weights (o : RNG)
    (hr : ∀ i, 100 ≤ o.randint i 100 1000 ∧ o.randint i 100 1000 ≤ 1000) :
    ∀ e ∈ chainEdges o, 100 ≤ e.2.2 ∧ e.2.2 ≤ 1000 := by
  unfold chainEdges
  generalize List.range (cidades.length - 1) = l
  have H : ∀ (l : List ℕ) (g : EdgeList), (∀ e ∈ g, 100 ≤ e.2.2 ∧ e.2.2 ≤ 1000) →
      ∀ e ∈ l.foldl
        (fun g i => addEdge g (cidades.getD i "") (cidades.getD (i + 1) "")
          (o.randint i 100 1000)) g, 100 ≤ e.2.2 ∧ e.2.2 ≤ 1000 := by
    intro l
    induction l with
    | nil => intro g hg; exact hg
    | cons i l ih =>
      intro g hg
      intro e he
      rw [List.foldl_cons] at he
      exact ih _ (addEdge_weights hg (hr i)) e he
  exact H l [] (by intro e he; simp at he)

lemma edgeLoop_weights (o : RNG) (target : ℕ)
    (hr : ∀ i, 100 ≤ o.randint i 100 1000 ∧ o.randint i 100 1000 ≤ 1000) :
    ∀ (fuel c : ℕ) (g : EdgeList), (∀ e ∈ g, 100 ≤ e.2.2 ∧ e.2.2 ≤ 1000) →
      ∀ e ∈ edgeLoop o target fuel c g, 100 ≤ e.2.2 ∧ e.2.2 ≤ 1000 := by
  intro fuel
  induction fuel with
  | zero => intro c g hg; exact hg
  | succ fuel ih =>
    intro c g hg
    simp only [edgeLoop]
    split
    · apply ih
      split
      · exact hg
      · exact addEdge_weights hg (hr c)
    · exact hg

/-- C9: every edge weight produced by either generator lies in `[100, 1000]`,
hence is a positive integer. -/
theorem graph_weights_in_range (o : RNG) (fuel : ℕ)
    (hr : ∀ i, 100 ≤ o.randint i 100 1000 ∧ o.randint i 100 1000 ≤ 1000) :
    (∀ e ∈ generate_graph o fuel, 100 ≤ e.2.2 ∧ e.2.2 ≤ 1000 ∧ 0 < e.2.2) ∧
    (∀ e ∈ create_brazilian_cities_graph o, 100 ≤ e.2.2 ∧ e.2.2 ≤ 1000 ∧ 0 < e.2.2) := by
  have hc := chainEdges_weights o hr
  constructor
  · intro e he
    have := edgeLoop_weights o (cidades.length + 5) hr fuel (cidades.length - 1)
      (chainEdges o) hc e he
    exact ⟨this.1, this.2, by omega⟩
  · intro e he
    have := edgeLoop_weights o (cidades.length - 1 + 8) hr 50 (cidades.length - 1)
      (chainEdges o) hc e he
    exact ⟨this.1, this.2, by omega⟩

/-- A concrete oracle always answering the lower bound, for the C9 witness. -/
def loRNG : RNG where
  randint := fun _ lo _ => lo
  sample2 := fun _ => ("a", "b")

lemma loRNG_range : ∀ i, 100 ≤ loRNG.randint i 100 1000 ∧ loRNG.randint i 100 1000 ≤ 1000 := by
  intro i
  constructor
  · exact Nat.le_refl 100
  · show (100 : ℕ) ≤ 1000
    decide

/-- Witness for C9 at the concrete oracle `loRNG` and fuel 7. -/
theorem graph_weights_in_range_witness :
    (∀ i, 100 ≤ loRNG.randint i 100 1000 ∧ loRNG.randint i 100 1000 ≤ 1000) ∧
    ((∀ e ∈ generate_graph loRNG 7, 100 ≤ e.2.2 ∧ e.2.2 ≤ 1000 ∧ 0 < e.2.2) ∧
     (∀ e ∈ create_brazilian_cities_graph loRNG,
        100 ≤ e.2.2 ∧ e.2.2 ≤ 1000 ∧ 0 < e.2.2)) :=
  ⟨loRNG_range, graph_weights_in_range loRNG 7 loRNG_range⟩

/-! ## Dijkstra (`graph_dijkstra_bfs_dfs/dijkstra_metrics.py`)

Vertices are natural numbers (Python uses strings; any type with a linear order for
the heap tie-break works, and `ℕ` keeps everything decidable).  A graph is a node
list plus an adjacency map sending a node to its `(neighbor, weight)` list — the
embedding of `graph.nodes()` and `graph[current].items()` reading the weight
attribute.  Distances are `WithTop ℕ` (`⊤` is the float infinity).  `heapq` pops a minimal
`(distance, node)` pair under lexicographic order.  The adjacency-closure premise
`hadj` reflects that Python raises `KeyError` when a neighbor is not a dict key;
it is what makes the loop well-founded. -/

/-- A finite weighted graph: its node list and adjacency lists. -/
structure DGraph where
  nodes : List ℕ
  adj : ℕ → List (ℕ × ℕ)

/-- The mutable state of `dijkstra`: `distances`, the heap `pq`, `previous_nodes`
and the `expanded_nodes` counter. -/
structure DState where
  dist : ℕ → WithTop ℕ
  pq : List (ℕ × ℕ)
  prev : ℕ → Option ℕ
  expanded : ℕ

/-- Lexicographic comparison of `(distance, node)` pairs, as Python compares tuples. -/
def pqlt (a b : ℕ × ℕ) : Bool :=
  a.1 < b.1 || (a.1 == b.1 && a.2 < b.2)

/-- The minimal entry of a nonempty heap, which `heapq.heappop` removes. -/
def pqMin : (ℕ × ℕ) → List (ℕ × ℕ) → ℕ × ℕ
  | m, [] => m
  | m, e :: rest => pqMin (if pqlt e m then e else m) rest

lemma pqMin_mem : ∀ (l : List (ℕ × ℕ)) (m : ℕ × ℕ), pqMin m l ∈ m :: l := by
  intro l
  induction l with
  | nil => intro m; simp [pqMin]
  | cons e rest ih =>
    intro m
    rw [pqMin]
    by_cases hc : pqlt e m
    · rw [if_pos hc]
      rcases List.mem_cons.1 (ih e) with h | h
      · rw [h]
        exact List.mem_cons_of_mem _ (List.mem_cons_self _ _)
      · exact List.mem_cons_of_mem _ (List.mem_cons_of_mem _ h)
    · rw [if_neg hc]
      rcases List.mem_cons.1 (ih m) with h | h
      · rw [h]
        exact List.mem_cons_self _ _
      · exact List.mem_cons_of_mem _ (List.mem_cons_of_mem _ h)

lemma pqMin_fst_le : ∀ (l : List (ℕ × ℕ)) (m : ℕ × ℕ), ∀ x ∈ m :: l, (pqMin m l).1 ≤ x.1 := by
  intro l
  induction l with
  | nil =>
    intro m x hx
    rcases List.mem_cons.1 hx with rfl | h
    · exact Nat.le_refl _
    · simp at h
  | cons e rest ih =>
    intro m x hx
    rw [pqMin]
    have hmin : (pqMin (if pqlt e m then e else m) rest).1 ≤ (if pqlt e m then e else m).1 :=
      ih _ _ (List.mem_cons_self _ _)
    have hm : (if pqlt e m then e else m).1 ≤ m.1 := by
      split
      · rename_i h
        simp only [pqlt, Bool.or_eq_true, Bool.and_eq_true, decide_eq_true_eq,
          beq_iff_eq] at h
        omega
      · exact Nat.le_refl _
    have he : (if pqlt e m then e else m).1 ≤ e.1 := by
      split
      · exact Nat.le_refl _
      · rename_i h
        simp only [pqlt, Bool.or_eq_true, Bool.and_eq_true, decide_eq_true_eq,
          beq_iff_eq] at h
        omega
    rcases List.mem_cons.1 hx with rfl | hx
    · exact Nat.le_trans hmin hm
    rcases List.mem_cons.1 hx with rfl | hx
    · exact Nat.le_trans hmin he
    · exact ih _ _ (List.mem_cons_of_mem _ hx)

/-- One step of the relaxation loop body: neighbor `p.1` via weight `p.2` from node
`cur` popped at distance `cd` (the `if distance < distances[neighbor]` update). -/
def relaxStep (cur cd : ℕ) (st : DState) (p : ℕ × ℕ) : DState :=
  if ((cd + p.2 : ℕ) : WithTop ℕ) < st.dist p.1 then
    { dist := fun y => if y = p.1 then ((cd + p.2 : ℕ) : WithTop ℕ) else st.dist y,
      pq := st.pq ++ [(cd + p.2, p.1)],
      prev := fun y => if y = p.1 then some cur else st.prev y,
      expanded := st.expanded }
  else st

/-- The `for neighbor, data in graph[current].items()` loop. -/
def relaxAll (cur cd : ℕ) (adj : List (ℕ × ℕ)) (st : DState) : DState :=
  adj.foldl (relaxStep cur cd) st

lemma relaxStep_dist_le (cur cd : ℕ) (st : DState) (p : ℕ × ℕ) (y : ℕ) :
    (relaxStep cur cd st p).dist y ≤ st.dist y := by
  unfold relaxStep
  split
  · rename_i h
    simp only
    split
    · rename_i hy
      exact le_of_lt (hy ▸ h)
    · exact le_refl _
  · exact le_refl _

lemma relaxAll_dist_le (cur cd : ℕ) (adj : List (ℕ × ℕ)) (st : DState) (y : ℕ) :
    (relaxAll cur cd adj st).dist y ≤ st.dist y := by
  induction adj generalizing st with
  | nil => exact le_refl _
  | cons p adj ih =>
    calc (relaxAll cur cd (p :: adj) st).dist y
        ≤ (relaxStep cur cd st p).dist y := ih (relaxStep cur cd st p)
      _ ≤ st.dist y := relaxStep_dist_le cur cd st p y

lemma relaxAll_cases (cur cd : ℕ) (adj : List (ℕ × ℕ)) (st : DState) :
    relaxAll cur cd adj st = st ∨
      ∃ p ∈ adj, (relaxAll cur cd adj st).dist p.1 < st.dist p.1 := by
  induction adj generalizing st with
  | nil => exact Or.inl rfl
  | cons p adj ih =>
    have hcons : relaxAll cur cd (p :: adj) st = relaxAll cur cd adj (relaxStep cur cd st p) :=
      rfl
    by_cases hstep : ((cd + p.2 : ℕ) : WithTop ℕ) < st.dist p.1
    · refine Or.inr ⟨p, List.mem_cons_self _ _, ?_⟩
      have h1 : (relaxAll cur cd adj (relaxStep cur cd st p)).dist p.1 ≤
          (relaxStep cur cd st p).dist p.1 := relaxAll_dist_le cur cd adj _ p.1
      have h2 : (relaxStep cur cd st p).dist p.1 = ((cd + p.2 : ℕ) : WithTop ℕ) := by
        unfold relaxStep
        rw [if_pos hstep]
        simp
      rw [hcons]
      exact lt_of_le_of_lt (h2 ▸ h1) hstep
    · have hid : relaxStep cur cd st p = st := by
        unfold relaxStep
        rw [if_neg hstep]
      rw [show relaxAll cur cd (p :: adj) st = relaxAll cur cd adj st from by
        rw [hcons, hid]]
      rcases ih st with h | ⟨q, hq, hlt⟩
      · exact Or.inl h
      · exact Or.inr ⟨q, List.mem_cons_of_mem _ hq, hlt⟩

/-- Number of nodes still at distance `⊤` (first component of the loop measure). -/
def cntInf (g : DGraph) (st : DState) : ℕ :=
  g.nodes.countP fun v => st.dist v == ⊤

/-- A finite distance as a natural number (`⊤` mapped to 0). -/
def finVal : WithTop ℕ → ℕ
  | none => 0
  | some n => n

lemma finVal_coe (n : ℕ) : finVal (n : WithTop ℕ) = n := rfl

lemma finVal_le {a b : WithTop ℕ} (hab : a ≤ b) (hb : b ≠ ⊤) : finVal a ≤ finVal b := by
  rcases WithTop.ne_top_iff_exists.1 hb with ⟨n, rfl⟩
  have ha : a ≠ ⊤ := fun h => absurd (h ▸ hab) (by simp)
  rcases WithTop.ne_top_iff_exists.1 ha with ⟨m, rfl⟩
  exact WithTop.coe_le_coe.1 hab

lemma finVal_lt {a b : WithTop ℕ} (hab : a < b) (hb : b ≠ ⊤) : finVal a < finVal b := by
  rcases WithTop.ne_top_iff_exists.1 hb with ⟨n, rfl⟩
  have ha : a ≠ ⊤ := fun h => absurd (h ▸ hab) (by simp)
  rcases WithTop.ne_top_iff_exists.1 ha with ⟨m, rfl⟩
  exact WithTop.coe_lt_coe.1 hab

/-- Sum of the finite distances (second component of the loop measure). -/
def sumFin (g : DGraph) (st : DState) : ℕ :=
  (g.nodes.map fun v => finVal (st.dist v)).sum

lemma countP_lt_of_flip {α : Type} (p q : α → Bool) :
    ∀ l : List α, (∀ a ∈ l, p a = true → q a = true) →
      ∀ u ∈ l, p u = false → q u = true → l.countP p < l.countP q := by
  intro l
  induction l with
  | nil => intro _ u hu; simp at hu
  | cons a l ih =>
    intro h u hu hpu hqu
    rw [List.countP_cons, List.countP_cons]
    rcases List.mem_cons.1 hu with rfl | hu
    · have hmono : l.countP p ≤ l.countP q :=
        List.countP_mono_left fun a ha => h a (List.mem_cons_of_mem _ ha)
      rw [hpu, hqu]
      simpa using Nat.lt_succ_of_le hmono
    · have := ih (fun a ha => h a (List.mem_cons_of_mem _ ha)) u hu hpu hqu
      have hstep : (if p a then 1 else 0) ≤ (if q a then 1 else 0) := by
        by_cases hpa : p a = true
        · rw [hpa, h a (List.mem_cons_self _ _) hpa]
        · simp [hpa]
      omega

lemma sum_map_lt_of_strict {α : Type} (f g : α → ℕ) :
    ∀ l : List α, (∀ a ∈ l, f a ≤ g a) → ∀ u ∈ l, f u < g u →
      (l.map f).sum < (l.map g).sum := by
  intro l
  induction l with
  | nil => intro _ u hu; simp at hu
  | cons a l ih =>
    intro h u hu hlt
    rw [List.map_cons, List.map_cons, List.sum_cons, List.sum_cons]
    rcases List.mem_cons.1 hu with rfl | hu
    · have hmono : (l.map f).sum ≤ (l.map g).sum := by
        apply List.sum_le_sum
        intro b hb
        exact h b (List.mem_cons_of_mem _ hb)
      omega
    · have h1 := ih (fun b hb => h b (List.mem_cons_of_mem _ hb)) u hu hlt
      have h2 := h a (List.mem_cons_self _ _)
      omega

/-- Packaged measure decrease for the relaxation branch of the main loop. -/
lemma relax_measure_lt (g : DGraph) (hadj : ∀ v, ∀ p ∈ g.adj v, p.1 ∈ g.nodes)
    (cur cd : ℕ) (st₁ st : DState) (hdist : st₁.dist = st.dist)
    (hlen : st₁.pq.length < st.pq.length) :
    Prod.Lex (· < ·) (Prod.Lex (· < ·) (· < ·))
      (cntInf g (relaxAll cur cd (g.adj cur) st₁),
        (sumFin g (relaxAll cur cd (g.adj cur) st₁),
          (relaxAll cur cd (g.adj cur) st₁).pq.length))
      (cntInf g st, (sumFin g st, st.pq.length)) := by
  set X := relaxAll cur cd (g.adj cur) st₁ with hX
  have hle : ∀ y, X.dist y ≤ st.dist y := by
    intro y
    rw [← hdist]
    exact relaxAll_dist_le cur cd (g.adj cur) st₁ y
  rcases relaxAll_cases cur cd (g.adj cur) st₁ with hsame | ⟨p, hp, hlt⟩
  · rw [← hX] at hsame
    have hc : cntInf g X = cntInf g st := by
      unfold cntInf
      rw [hsame, hdist]
    have hs : sumFin g X = sumFin g st := by
      unfold sumFin
      rw [hsame, hdist]
    rw [hc, hs]
    exact Prod.Lex.right _ (Prod.Lex.right _ (by rw [hsame]; exact hlen))
  · rw [← hX] at hlt
    rw [hdist] at hlt
    have hy : p.1 ∈ g.nodes := hadj cur p hp
    by_cases hflip : ∃ u ∈ g.nodes, st.dist u = ⊤ ∧ X.dist u ≠ ⊤
    · rcases hflip with ⟨u, hu, hst, hX'⟩
      apply Prod.Lex.left
      apply countP_lt_of_flip
      · intro a _ hpa
        rw [beq_iff_eq] at hpa ⊢
        exact top_le_iff.1 (hpa ▸ hle a)
      · exact hu
      · simpa using hX'
      · simpa using hst
    · push_neg at hflip
      have hnoflip : ∀ u ∈ g.nodes, st.dist u = ⊤ → X.dist u = ⊤ := hflip
      have hc : cntInf g X = cntInf g st := by
        unfold cntInf
        apply List.countP_congr
        intro a ha
        constructor
        · intro h
          rw [beq_iff_eq] at h ⊢
          exact top_le_iff.1 (h ▸ hle a)
        · intro h
          rw [beq_iff_eq] at h ⊢
          exact hnoflip a ha h
      rw [hc]
      apply Prod.Lex.right
      apply Prod.Lex.left
      unfold sumFin
      apply sum_map_lt_of_strict
      · intro a ha
        by_cases htop : st.dist a = ⊤
        · rw [htop, hnoflip a ha htop]
        · exact finVal_le (hle a) htop
      · exact hy
      · have htop : st.dist p.1 ≠ ⊤ := by
          intro h
          have := hnoflip p.1 hy h
          rw [this, h] at hlt
          exact lt_irrefl _ hlt
        exact finVal_lt hlt htop

/-- The main `while pq:` loop.  Each iteration pops the minimal entry `m` (counting it
as expanded), skips it if stale (`current_distance > distances[current_node]`), stops
if it is the end node, and otherwise relaxes all edges out of it.  `hadj` (adjacency
stays inside the node list — otherwise Python raises `KeyError`) makes the loop
well-founded: each iteration lexicographically decreases (number of `⊤` distances,
sum of finite distances, heap size). -/
def dijkstraLoop (g : DGraph) (hadj : ∀ v, ∀ p ∈ g.adj v, p.1 ∈ g.nodes) (endv : ℕ)
    (st : DState) : DState :=
  match hpq : st.pq with
  | [] => st
  | e :: rest =>
    let m := pqMin e rest
    let st₁ : DState :=
      { dist := st.dist, pq := st.pq.erase m, prev := st.prev, expanded := st.expanded + 1 }
    if ((m.1 : ℕ) : WithTop ℕ) > st.dist m.2 then
      dijkstraLoop g hadj endv st₁
    else if m.2 = endv then st₁
    else dijkstraLoop g hadj endv (relaxAll m.2 m.1 (g.adj m.2) st₁)
termination_by (cntInf g st, sumFin g st, st.pq.length)
decreasing_by
  · have hm : pqMin e rest ∈ st.pq := by
      rw [hpq]
      exact pqMin_mem rest e
    have hlen : (st.pq.erase (pqMin e rest)).length < st.pq.length := by
      rw [List.length_erase_of_mem hm]
      have : st.pq ≠ [] := by rw [hpq]; simp
      have : 0 < st.pq.length := List.length_pos.2 this
      omega
    exact Prod.Lex.right _ (Prod.Lex.right _ hlen)
  · have hm : pqMin e rest ∈ st.pq := by
      rw [hpq]
      exact pqMin_mem rest e
    have hlen : (st.pq.erase (pqMin e rest)).length < st.pq.length := by
      rw [List.length_erase_of_mem hm]
      have : st.pq ≠ [] := by rw [hpq]; simp
      have : 0 < st.pq.length := List.length_pos.2 this
      omega
    exact relax_measure_lt g hadj (pqMin e rest).2 (pqMin e rest).1 _ st rfl hlen

/-- Path reconstruction: `while current is not None: path.insert(0, current);
current = previous_nodes[current]`.  The `fuel` bound is a termination surrogate for
the unbounded `while`; the invariant proofs show the chain reaches `start` (whose
predecessor is `None`) strictly within it. -/
def buildPath (prev : ℕ → Option ℕ) : ℕ → ℕ → List ℕ → List ℕ
  | 0, _, acc => acc
  | fuel + 1, c, acc =>
    match prev c with
    | none => c :: acc
    | some u => buildPath prev fuel u (c :: acc)

/-- The initial state: `distances = {node: inf}` with `distances[start] = 0`,
`pq = [(0, start)]`, `previous_nodes = {node: None}`, zero expanded nodes. -/
def initState (start : ℕ) : DState :=
  { dist := fun v => if v = start then 0 else ⊤,
    pq := [(0, start)],
    prev := fun _ => none,
    expanded := 0 }

/-- Embedding of `dijkstra(graph, start, end)`: returns `(path, distances[end], expanded_nodes)`. -/
def dijkstra (g : DGraph) (hadj : ∀ v, ∀ p ∈ g.adj v, p.1 ∈ g.nodes)
    (start endv : ℕ) : List ℕ × WithTop ℕ × ℕ :=
  let st := dijkstraLoop g hadj endv (initState start)
  (buildPath st.prev (finVal (st.dist endv) + 2) endv [], st.dist endv, st.expanded)

/-- Predicate `PathW g p w`: the nonempty vertex list `p` is a path in `g` of total weight `w`
(each consecutive pair joined by an adjacency entry). -/
inductive PathW (g : DGraph) : List ℕ → ℕ → Prop
  | single (u : ℕ) : PathW g [u] 0
  | cons {u v : ℕ} {rest : List ℕ} {wt w : ℕ} :
      (v, wt) ∈ g.adj u → PathW g (v :: rest) w → PathW g (u :: v :: rest) (wt + w)

lemma dijkstraLoop_eq_nil (g : DGraph) (hadj : ∀ v, ∀ p ∈ g.adj v, p.1 ∈ g.nodes)
    (endv : ℕ) (st : DState) (hpq : st.pq = []) :
    dijkstraLoop g hadj endv st = st := by
  rw [dijkstraLoop.eq_def]
  split
  · rfl
  · rename_i e' rest' heq
    rw [heq] at hpq
    exact absurd hpq (by simp)

lemma dijkstraLoop_eq_stale (g : DGraph) (hadj : ∀ v, ∀ p ∈ g.adj v, p.1 ∈ g.nodes)
    (endv : ℕ) (st : DState) (e : ℕ × ℕ) (rest : List (ℕ × ℕ)) (hpq : st.pq = e :: rest)
    (h : ((pqMin e rest).1 : WithTop ℕ) > st.dist (pqMin e rest).2) :
    dijkstraLoop g hadj endv st =
      dijkstraLoop g hadj endv
        ⟨st.dist, st.pq.erase (pqMin e rest), st.prev, st.expanded + 1⟩ := by
  rw [dijkstraLoop.eq_def]
  split
  · rename_i heq
    rw [heq] at hpq
    exact absurd hpq (by simp)
  · rename_i e' rest' heq
    rw [heq] at hpq
    injection hpq with h1 h2
    subst h1; subst h2
    rw [if_pos h]

lemma dijkstraLoop_eq_break (g : DGraph) (hadj : ∀ v, ∀ p ∈ g.adj v, p.1 ∈ g.nodes)
    (endv : ℕ) (st : DState) (e : ℕ × ℕ) (rest : List (ℕ × ℕ)) (hpq : st.pq = e :: rest)
    (h : ¬ ((pqMin e rest).1 : WithTop ℕ) > st.dist (pqMin e rest).2)
    (he : (pqMin e rest).2 = endv) :
    dijkstraLoop g hadj endv st =
      ⟨st.dist, st.pq.erase (pqMin e rest), st.prev, st.expanded + 1⟩ := by
  rw [dijkstraLoop.eq_def]
  split
  · rename_i heq
    rw [heq] at hpq
    exact absurd hpq (by simp)
  · rename_i e' rest' heq
    rw [heq] at hpq
    injection hpq with h1 h2
    subst h1; subst h2
    rw [if_neg h, if_pos he]

lemma dijkstraLoop_eq_relax (g : DGraph) (hadj : ∀ v, ∀ p ∈ g.adj v, p.1 ∈ g.nodes)
    (endv : ℕ) (st : DState) (e : ℕ × ℕ) (rest : List (ℕ × ℕ)) (hpq : st.pq = e :: rest)
    (h : ¬ ((pqMin e rest).1 : WithTop ℕ) > st.dist (pqMin e rest).2)
    (he : ¬ (pqMin e rest).2 = endv) :
    dijkstraLoop g hadj endv st =
      dijkstraLoop g hadj endv
        (relaxAll (pqMin e rest).2 (pqMin e rest).1 (g.adj (pqMin e rest).2)
          ⟨st.dist, st.pq.erase (pqMin e rest), st.prev, st.expanded + 1⟩) := by
  rw [dijkstraLoop.eq_def]
  split
  · rename_i heq
    rw [heq] at hpq
    exact absurd hpq (by simp)
  · rename_i e' rest' heq
    rw [heq] at hpq
    injection hpq with h1 h2
    subst h1; subst h2
    rw [if_neg h, if_neg he]

/-- The ghost loop invariant.  `S` is the (existentially carried) list of settled
nodes: nodes popped non-stale and relaxed.  The Python state has no such set; it
only shapes the induction. -/
structure Inv (g : DGraph) (start : ℕ) (S : List ℕ) (st : DState) : Prop where
  dist_start : st.dist start = 0
  prev_start : st.prev start = none
  settled_fin : ∀ v ∈ S, st.dist v ≠ ⊤
  settled_min : ∀ v ∈ S, ∀ q wq, PathW g q wq → q.head? = some start →
    q.getLast? = some v → st.dist v ≤ (wq : WithTop ℕ)
  settled_adj : ∀ v ∈ S, ∀ p ∈ g.adj v, st.dist p.1 ≤ st.dist v + (p.2 : WithTop ℕ)
  pq_sound : ∀ e ∈ st.pq, st.dist e.2 ≤ (e.1 : WithTop ℕ)
  settled_le_pq : ∀ v ∈ S, ∀ e ∈ st.pq, st.dist v ≤ (e.1 : WithTop ℕ)
  unsettled_pq : ∀ v, v ∉ S → st.dist v ≠ ⊤ →
    ∃ dv : ℕ, (dv, v) ∈ st.pq ∧ (dv : WithTop ℕ) = st.dist v
  prev_chain : ∀ v, st.dist v ≠ ⊤ → v = start ∨ ∃ u wt, st.prev v = some u ∧
    (v, wt) ∈ g.adj u ∧ u ∈ S ∧ (wt : WithTop ℕ) + st.dist u = st.dist v

/-- The part of the invariant that survives the `break` and feeds path
reconstruction: every finite distance is witnessed by a `previous_nodes` edge
whose weight accounts exactly for the distance difference. -/
def ChainInv (g : DGraph) (start : ℕ) (st : DState) : Prop :=
  st.dist start = 0 ∧ st.prev start = none ∧
    ∀ v, st.dist v ≠ ⊤ → v = start ∨ ∃ u wt, st.prev v = some u ∧
      (v, wt) ∈ g.adj u ∧ (wt : WithTop ℕ) + st.dist u = st.dist v

lemma Inv.chainInv {g : DGraph} {start : ℕ} {S : List ℕ} {st : DState}
    (inv : Inv g start S st) : ChainInv g start st := by
  refine ⟨inv.dist_start, inv.prev_start, ?_⟩
  intro v hv
  rcases inv.prev_chain v hv with h | ⟨u, wt, h1, h2, _, h4⟩
  · exact Or.inl h
  · exact Or.inr ⟨u, wt, h1, h2, h4⟩

/-- Full behaviour of the relaxation loop: distances only improve; every neighbor
ends within `cd + weight`; each node is either untouched (distance and predecessor)
or was relaxed along some adjacent edge and pushed; the heap only grows, and every
new entry is a just-relaxed `(cd + w, neighbor)` pair covering the distance of its
node. -/
lemma relaxAll_spec (cur cd : ℕ) (adj : List (ℕ × ℕ)) (st : DState) :
    (∀ p ∈ adj, (relaxAll cur cd adj st).dist p.1 ≤ ((cd + p.2 : ℕ) : WithTop ℕ)) ∧
    (∀ y, ((relaxAll cur cd adj st).dist y = st.dist y ∧
            (relaxAll cur cd adj st).prev y = st.prev y) ∨
          (∃ w, (y, w) ∈ adj ∧ (relaxAll cur cd adj st).dist y = ((cd + w : ℕ) : WithTop ℕ) ∧
            (relaxAll cur cd adj st).prev y = some cur ∧
            (relaxAll cur cd adj st).dist y < st.dist y ∧
            (cd + w, y) ∈ (relaxAll cur cd adj st).pq)) ∧
    (∀ e ∈ st.pq, e ∈ (relaxAll cur cd adj st).pq) ∧
    (∀ e ∈ (relaxAll cur cd adj st).pq, e ∈ st.pq ∨
      ∃ w, (e.2, w) ∈ adj ∧ e.1 = cd + w ∧
        (relaxAll cur cd adj st).dist e.2 ≤ (e.1 : WithTop ℕ)) := by
  induction adj generalizing st with
  | nil =>
    refine ⟨?_, ?_, ?_, ?_⟩
    · intro p hp; simp at hp
    · intro y; exact Or.inl ⟨rfl, rfl⟩
    · intro e he; exact he
    · intro e he; exact Or.inl he
  | cons p adj ih =>
    have hcons : ∀ s : DState, relaxAll cur cd (p :: adj) s =
        relaxAll cur cd adj (relaxStep cur cd s p) := fun _ => rfl
    by_cases hstep : ((cd + p.2 : ℕ) : WithTop ℕ) < st.dist p.1
    · -- the first edge fires
      have hd : (relaxStep cur cd st p).dist =
          fun y => if y = p.1 then ((cd + p.2 : ℕ) : WithTop ℕ) else st.dist y := by
        unfold relaxStep
        rw [if_pos hstep]
      have hv : (relaxStep cur cd st p).prev =
          fun y => if y = p.1 then some cur else st.prev y := by
        unfold relaxStep
        rw [if_pos hstep]
      have hq : (relaxStep cur cd st p).pq = st.pq ++ [(cd + p.2, p.1)] := by
        unfold relaxStep
        rw [if_pos hstep]
      obtain ⟨ihB, ihC, ihD, ihE⟩ := ih (relaxStep cur cd st p)
      have hAp : (relaxAll cur cd (p :: adj) st).dist p.1 ≤ ((cd + p.2 : ℕ) : WithTop ℕ) := by
        rw [hcons]
        calc (relaxAll cur cd adj (relaxStep cur cd st p)).dist p.1
            ≤ (relaxStep cur cd st p).dist p.1 := relaxAll_dist_le _ _ _ _ _
          _ = ((cd + p.2 : ℕ) : WithTop ℕ) := by rw [hd]; simp
      refine ⟨?_, ?_, ?_, ?_⟩
      · intro p' hp'
        rcases List.mem_cons.1 hp' with rfl | hp'
        · exact hAp
        · rw [hcons]; exact ihB p' hp'
      · intro y
        rw [hcons]
        rcases ihC y with ⟨hdy, hpy⟩ | ⟨w, hw, h1, h2, h3, h4⟩
        · by_cases hyp : y = p.1
          · subst hyp
            refine Or.inr ⟨p.2, List.mem_cons_self _ _, ?_, ?_, ?_, ?_⟩
            · rw [hdy, hd]; simp
            · rw [hpy, hv]; simp
            · rw [hdy, hd]; simpa using hstep
            · exact ihD _ (by rw [hq]; exact List.mem_append_right _ (by simp))
          · refine Or.inl ⟨?_, ?_⟩
            · rw [hdy, hd]; simp [hyp]
            · rw [hpy, hv]; simp [hyp]
        · refine Or.inr ⟨w, List.mem_cons_of_mem _ hw, h1, h2, ?_, h4⟩
          exact lt_of_lt_of_le h3 (relaxStep_dist_le cur cd st p y)
      · intro e he
        rw [hcons]
        exact ihD e (by rw [hq]; exact List.mem_append_left _ he)
      · intro e he
        rw [hcons] at he
        rcases ihE e he with hold | ⟨w, hw, h1, h2⟩
        · rw [hq] at hold
          rcases List.mem_append.1 hold with h | h
          · exact Or.inl h
          · rcases List.mem_singleton.1 h with rfl
            refine Or.inr ⟨p.2, List.mem_cons_self _ _, rfl, ?_⟩
            show (relaxAll cur cd (p :: adj) st).dist p.1 ≤ _
            exact hAp
        · refine Or.inr ⟨w, List.mem_cons_of_mem _ hw, h1, ?_⟩
          rw [hcons]
          exact h2
    · -- the first edge does not fire
      have hid : relaxStep cur cd st p = st := by
        unfold relaxStep
        rw [if_neg hstep]
      have hcons' : relaxAll cur cd (p :: adj) st = relaxAll cur cd adj st := by
        rw [hcons, hid]
      obtain ⟨ihB, ihC, ihD, ihE⟩ := ih st
      refine ⟨?_, ?_, ?_, ?_⟩
      · intro p' hp'
        rw [hcons']
        rcases List.mem_cons.1 hp' with rfl | hp'
        · calc (relaxAll cur cd adj st).dist p'.1 ≤ st.dist p'.1 :=
            relaxAll_dist_le _ _ _ _ _
          _ ≤ ((cd + p'.2 : ℕ) : WithTop ℕ) := le_of_not_lt hstep
        · exact ihB p' hp'
      · intro y
        rw [hcons']
        rcases ihC y with h | ⟨w, hw, h1, h2, h3, h4⟩
        · exact Or.inl h
        · exact Or.inr ⟨w, List.mem_cons_of_mem _ hw, h1, h2, h3, h4⟩
      · intro e he
        rw [hcons']
        exact ihD e he
      · intro e he
        rw [hcons'] at he
        rcases ihE e he with h | ⟨w, hw, h1, h2⟩
        · exact Or.inl h
        · refine Or.inr ⟨w, List.mem_cons_of_mem _ hw, h1, ?_⟩
          rw [hcons']
          exact h2

lemma PathW_ne_nil {g : DGraph} {q : List ℕ} {wq : ℕ} (h : PathW g q wq) : q ≠ [] := by
  cases h <;> simp

/-- The cut argument: following any path from a node whose distance is within `D`,
either the path's endpoint already has distance within `D +` the path's weight, or
the path leaves the settled region at a node with distance within the budget. -/
lemma cut_lemma {g : DGraph} {S : List ℕ} {st : DState}
    (hsadj : ∀ v ∈ S, ∀ p ∈ g.adj v, st.dist p.1 ≤ st.dist v + (p.2 : WithTop ℕ)) :
    ∀ {q : List ℕ} {wq : ℕ}, PathW g q wq → ∀ {v₀ vend : ℕ} {D : ℕ},
      q.head? = some v₀ → q.getLast? = some vend → st.dist v₀ ≤ (D : WithTop ℕ) →
      st.dist vend ≤ ((D + wq : ℕ) : WithTop ℕ) ∨
        ∃ x, x ∉ S ∧ st.dist x ≤ ((D + wq : ℕ) : WithTop ℕ) := by
  intro q wq hq
  induction hq with
  | single u =>
    intro v₀ vend D hh hl hD
    simp only [List.head?] at hh
    simp only [List.getLast?] at hl
    injection hh with hh
    injection hl with hl
    subst hh; subst hl
    exact Or.inl (le_trans hD (by exact_mod_cast Nat.cast_le.2 (Nat.le_add_right D 0)))
  | cons hadj hsub ih =>
    rename_i u v rest wt w'
    intro v₀ vend D hh hl hD
    simp only [List.head?] at hh
    injection hh with hh
    subst hh
    rw [List.getLast?_cons_cons] at hl
    by_cases hu : u ∈ S
    · have hv : st.dist v ≤ ((D + wt : ℕ) : WithTop ℕ) := by
        calc st.dist v ≤ st.dist u + (wt : WithTop ℕ) := hsadj u hu (v, wt) hadj
          _ ≤ (D : WithTop ℕ) + (wt : WithTop ℕ) := add_le_add_right hD _
          _ = ((D + wt : ℕ) : WithTop ℕ) := by push_cast; ring
      have := @ih v vend (D + wt) rfl hl hv
      have harith : ((D + wt + w' : ℕ) : WithTop ℕ) = ((D + (wt + w') : ℕ) : WithTop ℕ) := by
        rw [Nat.add_assoc]
      rw [harith] at this
      exact this
    · refine Or.inr ⟨u, hu, ?_⟩
      exact le_trans hD (by exact_mod_cast Nat.le_add_right D (wt + w'))

/-- Whenever an entry pops, the current distance of its node is already optimal. -/
lemma pop_minimal {g : DGraph} {start : ℕ} {S : List ℕ} {st : DState}
    (inv : Inv g start S st) {e : ℕ × ℕ} {rest : List (ℕ × ℕ)}
    (hpq : st.pq = e :: rest) :
    ∀ q wq, PathW g q wq → q.head? = some start →
      q.getLast? = some (pqMin e rest).2 →
      st.dist (pqMin e rest).2 ≤ (wq : WithTop ℕ) := by
  intro q wq hq hh hl
  have hmem : pqMin e rest ∈ st.pq := by
    rw [hpq]; exact pqMin_mem rest e
  have hz : st.dist (pqMin e rest).2 ≤ ((pqMin e rest).1 : WithTop ℕ) :=
    inv.pq_sound _ hmem
  have hD : st.dist start ≤ ((0 : ℕ) : WithTop ℕ) := by
    rw [inv.dist_start]
    simp
  rcases cut_lemma inv.settled_adj hq hh hl hD with h | ⟨x, hx, hxle⟩
  · simpa using h
  · rcases inv.unsettled_pq x hx (by
      intro htop
      rw [htop] at hxle
      simp at hxle) with ⟨dx, hdx, hdxeq⟩
    have hcd : (pqMin e rest).1 ≤ dx := by
      apply pqMin_fst_le rest e (dx, x)
      rw [← hpq]
      exact hdx
    calc st.dist (pqMin e rest).2 ≤ ((pqMin e rest).1 : WithTop ℕ) := hz
      _ ≤ (dx : WithTop ℕ) := by exact_mod_cast hcd
      _ = st.dist x := hdxeq
      _ ≤ ((0 + wq : ℕ) : WithTop ℕ) := hxle
      _ = (wq : WithTop ℕ) := by rw [Nat.zero_add]

/-- Telescoping a path against fully relaxed edges. -/
lemma telescope {g : DGraph} {st : DState}
    (hall : ∀ v, ∀ p ∈ g.adj v, st.dist p.1 ≤ st.dist v + (p.2 : WithTop ℕ)) :
    ∀ {q : List ℕ} {wq : ℕ}, PathW g q wq → ∀ {v₀ vend : ℕ},
      q.head? = some v₀ → q.getLast? = some vend →
      st.dist vend ≤ st.dist v₀ + (wq : WithTop ℕ) := by
  intro q wq hq
  induction hq with
  | single u =>
    intro v₀ vend hh hl
    simp only [List.head?] at hh
    simp only [List.getLast?] at hl
    injection hh with hh
    injection hl with hl
    subst hh; subst hl
    simp
  | cons hadj hsub ih =>
    rename_i u v rest wt w'
    intro v₀ vend hh hl
    simp only [List.head?] at hh
    injection hh with hh
    subst hh
    rw [List.getLast?_cons_cons] at hl
    calc st.dist vend ≤ st.dist v + (w' : WithTop ℕ) := ih rfl hl
      _ ≤ (st.dist u + (wt : WithTop ℕ)) + (w' : WithTop ℕ) :=
        add_le_add_right (hall u (v, wt) hadj) _
      _ = st.dist u + ((wt + w' : ℕ) : WithTop ℕ) := by push_cast; ring

/-- Erasing the popped entry of a stale pop preserves the invariant with the same
settled set. -/
lemma stale_preserve {g : DGraph} {start : ℕ} {S : List ℕ} {st : DState}
    (inv : Inv g start S st) {e : ℕ × ℕ} {rest : List (ℕ × ℕ)}
    (hpq : st.pq = e :: rest)
    (hstale : ((pqMin e rest).1 : WithTop ℕ) > st.dist (pqMin e rest).2) :
    Inv g start S ⟨st.dist, st.pq.erase (pqMin e rest), st.prev, st.expanded + 1⟩ := by
  refine ⟨inv.dist_start, inv.prev_start, inv.settled_fin, inv.settled_min,
    inv.settled_adj, ?_, ?_, ?_, ?_⟩
  · intro x hx
    exact inv.pq_sound x (List.mem_of_mem_erase hx)
  · intro v hv x hx
    exact inv.settled_le_pq v hv x (List.mem_of_mem_erase hx)
  · intro v hv hfin
    rcases inv.unsettled_pq v hv hfin with ⟨dv, hdv, hdveq⟩
    refine ⟨dv, ?_, hdveq⟩
    show (dv, v) ∈ st.pq.erase (pqMin e rest)
    rw [List.mem_erase_of_ne]
    · exact hdv
    · intro hcontra
      have h1 : dv = (pqMin e rest).1 := congrArg Prod.fst hcontra
      have h2 : v = (pqMin e rest).2 := congrArg Prod.snd hcontra
      rw [h1, h2] at hdveq
      rw [← hdveq] at hstale
      exact lt_irrefl _ hstale
  · exact inv.prev_chain

/-- A non-stale pop relaxed through preserves the invariant with the popped node
settled. -/
lemma step_preserve {g : DGraph} {start : ℕ} {S : List ℕ} {st : DState}
    (inv : Inv g start S st) {e : ℕ × ℕ} {rest : List (ℕ × ℕ)}
    (hpq : st.pq = e :: rest)
    (hns : ¬ ((pqMin e rest).1 : WithTop ℕ) > st.dist (pqMin e rest).2) :
    Inv g start ((pqMin e rest).2 :: S)
      (relaxAll (pqMin e rest).2 (pqMin e rest).1 (g.adj (pqMin e rest).2)
        ⟨st.dist, st.pq.erase (pqMin e rest), st.prev, st.expanded + 1⟩) := by
  set z := (pqMin e rest).2 with hzdef
  set cd := (pqMin e rest).1 with hcddef
  set st₁ : DState := ⟨st.dist, st.pq.erase (pqMin e rest), st.prev, st.expanded + 1⟩
    with hst₁
  set r := relaxAll z cd (g.adj z) st₁ with hr
  have hmem : pqMin e rest ∈ st.pq := by rw [hpq]; exact pqMin_mem rest e
  have hmin : ∀ x ∈ st.pq, cd ≤ x.1 := by
    intro x hx
    apply pqMin_fst_le rest e
    rw [← hpq]
    exact hx
  have heqz : st.dist z = (cd : WithTop ℕ) :=
    le_antisymm (inv.pq_sound _ hmem) (not_lt.1 hns)
  obtain ⟨specB, specC, specD, specE⟩ := relaxAll_spec z cd (g.adj z) st₁
  have hd₁ : st₁.dist = st.dist := rfl
  have hp₁ : st₁.prev = st.prev := rfl
  have hq₁ : st₁.pq = st.pq.erase (pqMin e rest) := rfl
  have hAle : ∀ y, r.dist y ≤ st.dist y := by
    intro y
    rw [← hd₁]
    exact relaxAll_dist_le _ _ _ _ _
  -- settled distances (including the popped node) are frozen by the relaxation
  have hfrozen : ∀ v, v ∈ S ∨ v = z → r.dist v = st.dist v ∧ r.prev v = st.prev v := by
    intro v hv
    rcases specC v with ⟨h1, h2⟩ | ⟨w, hw, h1, h2, h3, h4⟩
    · exact ⟨h1, h2⟩
    · exfalso
      have hvlow : st.dist v ≤ (cd : WithTop ℕ) := by
        rcases hv with hv | rfl
        · exact inv.settled_le_pq v hv _ hmem
        · exact le_of_eq heqz
      have : r.dist v < st.dist v := by rw [← hd₁]; exact h3
      have hge : (cd : WithTop ℕ) ≤ r.dist v := by
        rw [h1]
        exact_mod_cast Nat.le_add_right cd w
      exact absurd (lt_of_le_of_lt (hge.trans' hvlow) this) (lt_irrefl _)
  have hrz : r.dist z = (cd : WithTop ℕ) := by
    rw [(hfrozen z (Or.inr rfl)).1, heqz]
  refine ⟨?_, ?_, ?_, ?_, ?_, ?_, ?_, ?_, ?_⟩
  · -- dist_start
    have h0 : r.dist start ≤ st.dist start := hAle start
    rw [inv.dist_start] at h0
    exact le_antisymm h0 (zero_le _)
  · -- prev_start
    rcases specC start with ⟨_, h2⟩ | ⟨w, hw, h1, h2, h3, h4⟩
    · rw [h2, hp₁, inv.prev_start]
    · exfalso
      have : r.dist start < st.dist start := by rw [← hd₁]; exact h3
      rw [inv.dist_start] at this
      exact absurd this (not_lt_of_le (zero_le _))
  · -- settled_fin
    intro v hv
    rcases List.mem_cons.1 hv with rfl | hv
    · rw [hrz]; simp
    · rw [(hfrozen v (Or.inl hv)).1]
      exact inv.settled_fin v hv
  · -- settled_min
    intro v hv q wq hqw hh hl
    rcases List.mem_cons.1 hv with rfl | hv
    · rw [hrz, ← heqz]
      exact pop_minimal inv hpq q wq hqw hh hl
    · rw [(hfrozen v (Or.inl hv)).1]
      exact inv.settled_min v hv q wq hqw hh hl
  · -- settled_adj
    intro v hv p hp
    rcases List.mem_cons.1 hv with rfl | hv
    · have := specB p hp
      rw [hrz]
      calc r.dist p.1 ≤ ((cd + p.2 : ℕ) : WithTop ℕ) := this
        _ = (cd : WithTop ℕ) + (p.2 : WithTop ℕ) := by push_cast; ring
    · rw [(hfrozen v (Or.inl hv)).1]
      calc r.dist p.1 ≤ st.dist p.1 := hAle p.1
        _ ≤ st.dist v + (p.2 : WithTop ℕ) := inv.settled_adj v hv p hp
  · -- pq_sound
    intro x hx
    rcases specE x hx with hold | ⟨w, hw, h1, h2⟩
    · rw [hq₁] at hold
      calc r.dist x.2 ≤ st.dist x.2 := hAle x.2
        _ ≤ (x.1 : WithTop ℕ) := inv.pq_sound x (List.mem_of_mem_erase hold)
    · exact h2
  · -- settled_le_pq
    intro v hv x hx
    have hvcd : r.dist v ≤ (cd : WithTop ℕ) := by
      rcases List.mem_cons.1 hv with rfl | hv
      · exact le_of_eq hrz
      · rw [(hfrozen v (Or.inl hv)).1]
        exact inv.settled_le_pq v hv _ hmem
    rcases specE x hx with hold | ⟨w, hw, h1, h2⟩
    · rw [hq₁] at hold
      have := hmin x (List.mem_of_mem_erase hold)
      calc r.dist v ≤ (cd : WithTop ℕ) := hvcd
        _ ≤ (x.1 : WithTop ℕ) := by exact_mod_cast this
    · calc r.dist v ≤ (cd : WithTop ℕ) := hvcd
        _ ≤ (x.1 : WithTop ℕ) := by
          rw [h1]
          exact_mod_cast Nat.le_add_right cd w
  · -- unsettled_pq
    intro v hv hfin
    have hvz : v ≠ z := fun h => hv (h ▸ List.mem_cons_self _ _)
    have hvS : v ∉ S := fun h => hv (List.mem_cons_of_mem _ h)
    rcases specC v with ⟨h1, h2⟩ | ⟨w, hw, h1, h2, h3, h4⟩
    · rw [h1, hd₁] at hfin ⊢
      rcases inv.unsettled_pq v hvS hfin with ⟨dv, hdv, hdveq⟩
      refine ⟨dv, ?_, hdveq⟩
      apply specD
      rw [hq₁, List.mem_erase_of_ne]
      · exact hdv
      · intro hcontra
        exact hvz (congrArg Prod.snd hcontra)
    · exact ⟨cd + w, h4, h1.symm⟩
  · -- prev_chain
    intro v hfin
    rcases specC v with ⟨h1, h2⟩ | ⟨w, hw, h1, h2, h3, h4⟩
    · rw [h1, hd₁] at hfin
      rcases inv.prev_chain v hfin with h | ⟨u, wt, hu1, hu2, hu3, hu4⟩
      · exact Or.inl h
      · refine Or.inr ⟨u, wt, ?_, hu2, List.mem_cons_of_mem _ hu3, ?_⟩
        · rw [h2, hp₁, hu1]
        · rw [h1, hd₁, (hfrozen u (Or.inl hu3)).1, hu4]
    · refine Or.inr ⟨z, w, h2, hw, List.mem_cons_self _ _, ?_⟩
      rw [hrz, h1]
      push_cast
      ring

/-- What the main loop guarantees: the chain invariant for reconstruction always,
and on exit either an empty heap with the full invariant, or (after the `break`)
an optimal finite distance for the end node. -/
lemma dijkstraLoop_spec (g : DGraph) (hadj : ∀ v, ∀ p ∈ g.adj v, p.1 ∈ g.nodes)
    (endv start : ℕ) :
    ∀ st : DState, (∃ S, Inv g start S st) →
      ChainInv g start (dijkstraLoop g hadj endv st) ∧
        (((dijkstraLoop g hadj endv st).pq = [] ∧
            ∃ S', Inv g start S' (dijkstraLoop g hadj endv st)) ∨
          ((dijkstraLoop g hadj endv st).dist endv ≠ ⊤ ∧
            ∀ q wq, PathW g q wq → q.head? = some start → q.getLast? = some endv →
              (dijkstraLoop g hadj endv st).dist endv ≤ (wq : WithTop ℕ))) := by
  intro st
  induction st using dijkstraLoop.induct g hadj endv with
  | case1 x hpq =>
    intro hinv
    rcases hinv with ⟨S, inv⟩
    rw [dijkstraLoop_eq_nil g hadj endv x hpq]
    exact ⟨inv.chainInv, Or.inl ⟨hpq, S, inv⟩⟩
  | case2 x e rest hpq m st₁ hstale ih =>
    intro hinv
    rcases hinv with ⟨S, inv⟩
    rw [dijkstraLoop_eq_stale g hadj endv x e rest hpq hstale]
    exact ih ⟨S, stale_preserve inv hpq hstale⟩
  | case3 x e rest hpq m hns hend =>
    intro hinv
    rcases hinv with ⟨S, inv⟩
    rw [dijkstraLoop_eq_break g hadj endv x e rest hpq hns hend]
    have hmem : pqMin e rest ∈ x.pq := by rw [hpq]; exact pqMin_mem rest e
    have hle : x.dist (pqMin e rest).2 ≤ ((pqMin e rest).1 : WithTop ℕ) :=
      inv.pq_sound _ hmem
    have hfin : x.dist endv ≠ ⊤ := by
      rw [← hend]
      intro htop
      rw [htop] at hle
      simp at hle
    refine ⟨inv.chainInv, Or.inr ⟨hfin, ?_⟩⟩
    intro q wq hq hh hl
    show x.dist endv ≤ (wq : WithTop ℕ)
    rw [← hend] at hl ⊢
    exact pop_minimal inv hpq q wq hq hh hl
  | case4 x e rest hpq m st₁ hns hne ih =>
    intro hinv
    rcases hinv with ⟨S, inv⟩
    rw [dijkstraLoop_eq_relax g hadj endv x e rest hpq hns hne]
    exact ih ⟨(pqMin e rest).2 :: S, step_preserve inv hpq hns⟩

/-- The initial state satisfies the invariant with no settled nodes. -/
lemma initState_inv (g : DGraph) (start : ℕ) : Inv g start [] (initState start) := by
  have hds : (initState start).dist start = 0 := by
    show (if start = start then (0 : WithTop ℕ) else ⊤) = 0
    rw [if_pos rfl]
  have hdo : ∀ v, v ≠ start → (initState start).dist v = ⊤ := by
    intro v hv
    show (if v = start then (0 : WithTop ℕ) else ⊤) = ⊤
    rw [if_neg hv]
  refine ⟨hds, rfl, ?_, ?_, ?_, ?_, ?_, ?_, ?_⟩
  · intro v hv; simp at hv
  · intro v hv; simp at hv
  · intro v hv; simp at hv
  · intro x hx
    rcases List.mem_singleton.1 hx with rfl
    show (initState start).dist start ≤ ((0 : ℕ) : WithTop ℕ)
    rw [hds]
    simp
  · intro v hv; simp at hv
  · intro v _ hfin
    by_cases hvs : v = start
    · subst hvs
      refine ⟨0, List.mem_singleton.2 rfl, ?_⟩
      rw [hds]
      simp
    · exact absurd (hdo v hvs) hfin
  · intro v hfin
    by_cases hvs : v = start
    · exact Or.inl hvs
    · exact absurd (hdo v hvs) hfin

lemma PathW_snoc {g : DGraph} : ∀ {p : List ℕ} {w : ℕ}, PathW g p w →
    ∀ {u v wt : ℕ}, p.getLast? = some u → (v, wt) ∈ g.adj u →
      PathW g (p ++ [v]) (w + wt) := by
  intro p w hp
  induction hp with
  | single a =>
    intro u v wt hl hedge
    simp only [List.getLast?] at hl
    injection hl with hl
    subst hl
    show PathW g [a, v] (0 + wt)
    rw [Nat.zero_add]
    have h := PathW.cons hedge (PathW.single v)
    rw [Nat.add_zero] at h
    exact h
  | cons hadj hsub ih =>
    rename_i a b rest wt₁ w₁
    intro u v wt hl hedge
    rw [List.getLast?_cons_cons] at hl
    have h2 := ih hl hedge
    have h3 := PathW.cons hadj h2
    have harith : wt₁ + (w₁ + wt) = wt₁ + w₁ + wt := (Nat.add_assoc wt₁ w₁ wt).symm
    rw [harith] at h3
    exact h3

/-- Under the chain invariant, each finite distance `n` at `v` is realized by the
`previous_nodes` chain: `buildPath` reconstructs (within fuel `> n`) a path of
weight exactly `n` from `start` to `v`. -/
lemma chain_realizes {g : DGraph} {start : ℕ} {st : DState}
    (hpos : ∀ v, ∀ p ∈ g.adj v, 0 < p.2) (hci : ChainInv g start st) :
    ∀ (n : ℕ) (v : ℕ), st.dist v = (n : WithTop ℕ) →
      ∃ p, (∀ (fuel : ℕ) (acc : List ℕ), n < fuel →
          buildPath st.prev fuel v acc = p ++ acc) ∧
        PathW g p n ∧ p.head? = some start ∧ p.getLast? = some v := by
  intro n
  induction n using Nat.strong_induction_on with
  | _ n ih =>
    intro v hv
    obtain ⟨hd0, hp0, hchain⟩ := hci
    have hfin : st.dist v ≠ ⊤ := by rw [hv]; simp
    rcases hchain v hfin with hveq | ⟨u, wt, hprev, hedge, heqq⟩
    · subst hveq
      have hn0 : n = 0 := by
        rw [hd0] at hv
        exact_mod_cast hv.symm
      subst hn0
      refine ⟨[v], ?_, PathW.single v, rfl, rfl⟩
      intro fuel acc hfuel
      cases fuel with
      | zero => simp at hfuel
      | succ f =>
        show buildPath st.prev (f + 1) v acc = [v] ++ acc
        simp [buildPath, hp0]
    · have hfinu : st.dist u ≠ ⊤ := by
        intro h
        rw [h, hv] at heqq
        simp at heqq
      rcases WithTop.ne_top_iff_exists.1 hfinu with ⟨m, hm⟩
      have hm' : (m : WithTop ℕ) = st.dist u := hm
      have hmn : wt + m = n := by
        rw [← hm', hv] at heqq
        exact_mod_cast heqq
      have hwtpos : 0 < wt := hpos u (v, wt) hedge
      have hmlt : m < n := by omega
      obtain ⟨pu, hbu, hPW, hhead, hlast⟩ := ih m hmlt u hm'.symm
      refine ⟨pu ++ [v], ?_, ?_, ?_, List.getLast?_concat pu⟩
      · intro fuel acc hfuel
        cases fuel with
        | zero => simp at hfuel
        | succ f =>
          have hstep : buildPath st.prev (f + 1) v acc = buildPath st.prev f u (v :: acc) := by
            simp [buildPath, hprev]
          rw [hstep, hbu f (v :: acc) (by omega), List.append_assoc]
          rfl
      · have h := PathW_snoc hPW hlast hedge
        have harith : m + wt = n := by omega
        rw [harith] at h
        exact h
      · rcases pu with _ | ⟨a, t⟩
        · exact absurd hhead (by simp)
        · simpa using hhead

/-- C2: on a finite undirected graph with positive integer weights, when `end` is
reachable from `start`, `dijkstra` returns a path from `start` to `end` whose total
weight equals the returned distance, which is minimal over all such paths. -/
theorem dijkstra_correct (g : DGraph)
    (hadj : ∀ v, ∀ p ∈ g.adj v, p.1 ∈ g.nodes)
    (hpos : ∀ v, ∀ p ∈ g.adj v, 0 < p.2)
    (hsym : ∀ u v w, (v, w) ∈ g.adj u → (u, w) ∈ g.adj v)
    (start endv : ℕ) (hstart : start ∈ g.nodes)
    (hreach : ∃ q wq, PathW g q wq ∧ q.head? = some start ∧ q.getLast? = some endv) :
    ∃ w : ℕ,
      (dijkstra g hadj start endv).2.1 = (w : WithTop ℕ) ∧
      PathW g (dijkstra g hadj start endv).1 w ∧
      (dijkstra g hadj start endv).1.head? = some start ∧
      (dijkstra g hadj start endv).1.getLast? = some endv ∧
      ∀ q wq, PathW g q wq → q.head? = some start → q.getLast? = some endv →
        w ≤ wq := by
  obtain ⟨hchain, hdisj⟩ :=
    dijkstraLoop_spec g hadj endv start (initState start) ⟨[], initState_inv g start⟩
  set stR := dijkstraLoop g hadj endv (initState start) with hstR
  have hkey : stR.dist endv ≠ ⊤ ∧ ∀ q wq, PathW g q wq → q.head? = some start →
      q.getLast? = some endv → stR.dist endv ≤ (wq : WithTop ℕ) := by
    rcases hdisj with ⟨hpqnil, S', invR⟩ | h
    · have hall : ∀ v, ∀ p ∈ g.adj v, stR.dist p.1 ≤ stR.dist v + (p.2 : WithTop ℕ) := by
        intro v p hp
        by_cases hvS : v ∈ S'
        · exact invR.settled_adj v hvS p hp
        · have htop : stR.dist v = ⊤ := by
            by_contra hfin
            rcases invR.unsettled_pq v hvS hfin with ⟨dv, hdv, _⟩
            rw [hpqnil] at hdv
            simp at hdv
          rw [htop]
          simp
      have hminimal : ∀ q wq, PathW g q wq → q.head? = some start →
          q.getLast? = some endv → stR.dist endv ≤ (wq : WithTop ℕ) := by
        intro q wq hq hh hl
        calc stR.dist endv ≤ stR.dist start + (wq : WithTop ℕ) := telescope hall hq hh hl
          _ = 0 + (wq : WithTop ℕ) := by rw [invR.dist_start]
          _ = (wq : WithTop ℕ) := zero_add _
      refine ⟨?_, hminimal⟩
      rcases hreach with ⟨q, wq, hq, hh, hl⟩
      have hle := hminimal q wq hq hh hl
      intro htop
      rw [htop] at hle
      exact absurd hle (by simp)
    · exact h
  obtain ⟨hfin, hminimal⟩ := hkey
  rcases WithTop.ne_top_iff_exists.1 hfin with ⟨n, hn⟩
  have hn' : stR.dist endv = (n : WithTop ℕ) := hn.symm
  obtain ⟨p, hbuild, hPW, hhead, hlast⟩ := chain_realizes hpos hchain n endv hn'
  have hfuel : n < finVal (stR.dist endv) + 2 := by
    rw [hn', finVal_coe]
    omega
  have hb' : (dijkstra g hadj start endv).1 = p := by
    show buildPath stR.prev (finVal (stR.dist endv) + 2) endv [] = p
    rw [hbuild (finVal (stR.dist endv) + 2) [] hfuel, List.append_nil]
  refine ⟨n, ?_, ?_, ?_, ?_, ?_⟩
  · show stR.dist endv = (n : WithTop ℕ)
    exact hn'
  · rw [hb']
    exact hPW
  · rw [hb']
    exact hhead
  · rw [hb']
    exact hlast
  · intro q wq hq hh hl
    have hle := hminimal q wq hq hh hl
    rw [hn'] at hle
    exact_mod_cast hle

/-- A concrete two-node graph with a single undirected edge of weight 5, for the
C2 witness. -/
def gW : DGraph where
  nodes := [0, 1]
  adj := fun v =>
    match v with
    | 0 => [(1, 5)]
    | 1 => [(0, 5)]
    | _ => []

lemma gW_adj : ∀ v, ∀ p ∈ gW.adj v, p.1 ∈ gW.nodes := by
  intro v p hp
  rcases v with _ | _ | v
  · simp [gW] at hp
    rw [hp]
    simp [gW]
  · simp [gW] at hp
    rw [hp]
    simp [gW]
  · simp [gW] at hp

lemma gW_pos : ∀ v, ∀ p ∈ gW.adj v, 0 < p.2 := by
  intro v p hp
  rcases v with _ | _ | v
  · simp [gW] at hp
    rw [hp]
    simp
  · simp [gW] at hp
    rw [hp]
    simp
  · simp [gW] at hp

lemma gW_sym : ∀ u v w, (v, w) ∈ gW.adj u → (u, w) ∈ gW.adj v := by
  intro u v w hp
  rcases u with _ | _ | u
  · simp [gW] at hp
    rw [hp.1, hp.2]
    simp [gW]
  · simp [gW] at hp
    rw [hp.1, hp.2]
    simp [gW]
  · simp [gW] at hp

/-- Witness for C2 on the concrete graph `gW` from node 0 to node 1. -/
theorem dijkstra_correct_witness :
    ∃ w : ℕ,
      (dijkstra gW gW_adj 0 1).2.1 = (w : WithTop ℕ) ∧
      PathW gW (dijkstra gW gW_adj 0 1).1 w ∧
      (dijkstra gW gW_adj 0 1).1.head? = some 0 ∧
      (dijkstra gW gW_adj 0 1).1.getLast? = some 1 ∧
      ∀ q wq, PathW gW q wq → q.head? = some 0 → q.getLast? = some 1 → w ≤ wq :=
  dijkstra_correct gW gW_adj gW_pos gW_sym 0 1 (by simp [gW])
    ⟨[0, 1], 5, PathW.cons (by simp [gW]) (PathW.single 1), rfl, rfl⟩

end Graphs
